import Mathlib

/-!
Shallow embedding of `src/io/measure_record_reader.cc` (Stim measurement
record readers) and proofs about the specification claims.

Modelling conventions:
* A `FILE *` stream is a `List Nat` of byte values (each `< 256` in practice);
  `getc` returns `-1 : Int` for EOF and otherwise the byte as an `Int`.
* C++ exceptions are modelled by returning `(Except Err α) × State`: the state
  component is the object state at the moment the exception escapes, matching
  the partial mutations the C++ code performs before each `throw`.
* `std::out_of_range("...end-of-record")` is `Err.EndOfRecord`,
  `std::out_of_range("...end-of-file")` is `Err.EndOfStream`,
  `std::runtime_error` is `Err.MalformedInput`, and
  `std::invalid_argument` is `Err.ConfigurationError`.
* Machine integers (`size_t`, `long`, `int`) are modelled as `Nat`/`Int`;
  the record-size guard uses `SSIZE_MAX` for an LP64 platform.
-/

namespace StimReader

/-- Error kinds raised by the readers (see §7 of the spec). -/
inductive Err where
  | EndOfRecord
  | EndOfStream
  | MalformedInput
  | ConfigurationError
deriving DecidableEq, Repr

/-- `SSIZE_MAX` for the modelled LP64 platform (64-bit `ssize_t`). -/
def SSIZE_MAX : Nat := 2 ^ 63 - 1

/-- `getc(in)`: consume one byte, `-1` (EOF) on an exhausted stream. -/
def getc : List Nat → Int × List Nat
  | [] => (-1, [])
  | b :: rest => ((b : Int), rest)

/-- `isdigit` on the `int` returned by `getc` ('0'..'9'; false on EOF). -/
def isdigit (c : Int) : Bool := 48 ≤ c && c ≤ 57

/-- Digit-accumulation loop of `read_unsigned_int`:
`while (isdigit(next)) { value = value*10 + next - '0'; next = getc(in); }`. -/
def ruLoop (v : Int) (next : Int) (l : List Nat) : Int × Int × List Nat :=
  if isdigit next then
    match l with
    | [] => (v * 10 + (next - 48), -1, [])
    | c :: rest => ruLoop (v * 10 + (next - 48)) (c : Int) rest
  else (v, next, l)

/-- `read_unsigned_int(FILE*, long &value, int &next)`.
Returns `(some value | none, next, rest)`; `none` means the leading
character was not a digit (the caller's `value` is left unchanged). -/
def read_unsigned_int (l : List Nat) : Option Int × Int × List Nat :=
  let p := getc l
  if isdigit p.1 then
    let q := ruLoop 0 p.1 p.2
    (some q.1, q.2.1, q.2.2)
  else (none, p.1, p.2)

/-- Matching loop of `maybe_consume_keyword`, i.e.
`while (i < keyword.size() && next == (int)keyword[i++]) next = getc(in);`
followed by `if (i != keyword.size()) throw ...`.  Because the `i++` sits
inside the loop condition, a mismatch (or EOF) at the **last** keyword
character still leaves `i == keyword.size()`, so no error is raised there:
only a mismatch at an earlier position escapes as a `runtime_error`.  On a
full match the character after the keyword has been fetched into `next`;
on an accepted last-character mismatch `next` holds the mismatching
character itself. -/
def consume_kw_loop : List Nat → Int → List Nat → (Except Err Unit) × Int × List Nat
  | [], next, l => (.ok (), next, l)
  | k :: ks, next, l =>
      if next = (k : Int) then
        let p := getc l
        consume_kw_loop ks p.1 p.2
      else if ks = [] then (.ok (), next, l)
      else (.error .MalformedInput, next, l)

/-- `maybe_consume_keyword(FILE *in, const std::string& keyword, int &next)`:
`ok true` when the keyword was consumed (with `next` holding the following
character) — which, due to the `i++` inside the loop condition, also happens
when only the last keyword character mismatches or hits EOF —, `ok false`
when EOF was found at the current position, an error otherwise. -/
def maybe_consume_keyword (kw : List Nat) (l : List Nat) :
    (Except Err Bool) × Int × List Nat :=
  let p := getc l
  if p.1 = -1 then (.ok false, p.1, p.2)
  else
    match consume_kw_loop kw p.1 p.2 with
    | (.ok (), next, rest) => (.ok true, next, rest)
    | (.error e, next, rest) => (.error e, next, rest)

/-! ## Reader states

Each concrete reader holds the borrowed stream (`input`), the base-class
fields `bits_per_record` and `position`, plus its format-specific state. -/

/-- `MeasureRecordReaderFormat01` state. -/
structure Format01 where
  input : List Nat
  bits_per_record : Nat
  position : Nat
  payload : Int
deriving DecidableEq, Repr

/-- `MeasureRecordReaderFormatB8` state. -/
structure FormatB8 where
  input : List Nat
  bits_per_record : Nat
  position : Nat
  payload : Int
  bits_available : Nat
deriving DecidableEq, Repr

/-- `MeasureRecordReaderFormatHits` state. -/
structure FormatHits where
  input : List Nat
  bits_per_record : Nat
  position : Nat
  separator : Int
  next_hit : Int
deriving DecidableEq, Repr

/-- `MeasureRecordReaderFormatR8` state. -/
structure FormatR8 where
  input : List Nat
  bits_per_record : Nat
  position : Nat
  run_length_0s : Nat
  run_length_1s : Nat
  generated_0s : Nat
  generated_1s : Nat
deriving DecidableEq, Repr

/-- `MeasureRecordReaderFormatDets` state.  `result_type` is a C++ `char`. -/
structure FormatDets where
  input : List Nat
  bits_per_record : Nat
  position : Nat
  result_type : Int
  separator : Int
  next_shot : Int
deriving DecidableEq, Repr

/-! ## Format01 operations -/

namespace Format01

/-- `MeasureRecordReaderFormat01::read_bit`. -/
def read_bit (s : Format01) : (Except Err Bool) × Format01 :=
  if s.payload = -1 then (.error .EndOfStream, s)
  else if s.payload = 10 ∨ s.position ≥ s.bits_per_record then (.error .EndOfRecord, s)
  else if s.payload ≠ 48 ∧ s.payload ≠ 49 then (.error .MalformedInput, s)
  else
    let bit := s.payload = 49
    let p := getc s.input
    (.ok bit, { s with payload := p.1, input := p.2, position := s.position + 1 })

/-- The skip loop of `MeasureRecordReaderFormat01::next_record`:
`while (payload != EOF && payload != '\n' && ++position < bits_per_record)
payload = getc(in);`. -/
def nr_loop (s : Format01) : Format01 :=
  if s.payload = -1 ∨ s.payload = 10 then s
  else
    let pos' := s.position + 1
    if pos' < s.bits_per_record then
      let p := getc s.input
      nr_loop { s with position := pos', payload := p.1, input := p.2 }
    else { s with position := pos' }
termination_by s.bits_per_record - s.position
decreasing_by
  omega

/-- `MeasureRecordReaderFormat01::next_record`. -/
def next_record (s : Format01) : (Except Err Bool) × Format01 :=
  let t := nr_loop s
  if t.position > t.bits_per_record then (.error .MalformedInput, t)
  else
    let p := getc t.input
    (.ok (p.1 ≠ -1), { t with position := 0, payload := p.1, input := p.2 })

/-- `MeasureRecordReaderFormat01::is_end_of_record`. -/
def is_end_of_record (s : Format01) : Bool :=
  s.payload = -1 || s.payload = 10 || s.position ≥ s.bits_per_record

end Format01

/-- `MeasureRecordReaderFormat01` constructor body (after the base-class
record-size check): reads the first character into `payload`. -/
def init01 (input : List Nat) (bits_per_record : Nat) : Format01 :=
  let p := getc input
  { input := p.2, bits_per_record := bits_per_record, position := 0, payload := p.1 }

/-! ## Generic (base class) `MeasureRecordReader::read_bytes`

The base implementation is bit-by-bit through the virtual `read_bit` and
`is_end_of_record`; virtual dispatch is modelled by passing those two
operations as parameters.  Both may mutate the state, so `eor` returns a
`Bool × σ` pair.  The buffer is a `List Nat` of byte values, rebuilt with the
bytes the loop wrote (C++ writes through `uint8_t &b`, so a byte the loop has
entered is visible in the buffer even when an exception escapes). -/

/-- Inner loop of the base `read_bytes`: fill bits `i..7` of the current
byte `b`; returns (bits consumed, whether `is_end_of_record` fired), the
final byte value and state. -/
def genByte {σ : Type} (rb : σ → (Except Err Bool) × σ) (eor : σ → Bool × σ)
    (s : σ) (b : Nat) (i : Nat) : (Except Err (Nat × Bool)) × Nat × σ :=
  if i < 8 then
    match rb s with
    | (.error e, s') => (.error e, b, s')
    | (.ok bit, s') =>
      let b' := b ||| (bit.toNat <<< i)
      match eor s' with
      | (true, s'') => (.ok (1, true), b', s'')
      | (false, s'') =>
        match genByte rb eor s'' b' (i + 1) with
        | (.error e, bf, sf) => (.error e, bf, sf)
        | (.ok (n, ended), bf, sf) => (.ok (n + 1, ended), bf, sf)
  else (.ok (0, false), b, s)
termination_by 8 - i

/-- Outer loop of the base `read_bytes` over the buffer bytes. -/
def genLoop {σ : Type} (rb : σ → (Except Err Bool) × σ) (eor : σ → Bool × σ) :
    σ → List Nat → (Except Err Nat) × List Nat × σ
  | s, [] => (.ok 0, [], s)
  | s, _b :: rest =>
    match genByte rb eor s 0 0 with
    | (.error e, bf, sf) => (.error e, bf :: rest, sf)
    | (.ok (n, true), bf, sf) => (.ok n, bf :: rest, sf)
    | (.ok (n, false), bf, sf) =>
      match genLoop rb eor sf rest with
      | (.error e, rest', sf') => (.error e, bf :: rest', sf')
      | (.ok n2, rest', sf') => (.ok (n + n2), bf :: rest', sf')

/-- `MeasureRecordReader::read_bytes` (the generic bit-by-bit path). -/
def genReadBytes {σ : Type} (rb : σ → (Except Err Bool) × σ) (eor : σ → Bool × σ)
    (pos bpr : σ → Nat) (s : σ) (buf : List Nat) : (Except Err Nat) × List Nat × σ :=
  if pos s ≥ bpr s then (.ok 0, buf, s) else genLoop rb eor s buf

/-- `read_bytes` for Format01 is inherited from the base class. -/
def Format01.read_bytes (s : Format01) (data : List Nat) : (Except Err Nat) × List Nat × Format01 :=
  genReadBytes Format01.read_bit (fun t => (Format01.is_end_of_record t, t))
    (fun t => t.position) (fun t => t.bits_per_record) s data

/-! ## FormatB8 operations -/

namespace FormatB8

/-- `MeasureRecordReaderFormatB8::maybe_update_payload`. -/
def maybe_update_payload (s : FormatB8) : FormatB8 :=
  if s.bits_available > 0 then s
  else
    let p := getc s.input
    if p.1 = -1 then { s with payload := p.1, input := p.2 }
    else { s with payload := p.1, input := p.2, bits_available := 8 }

/-- `MeasureRecordReaderFormatB8::read_bit`.  `payload >>= 1` is division by
two (the payload is non-negative whenever this branch is reached). -/
def read_bit (s : FormatB8) : (Except Err Bool) × FormatB8 :=
  if s.position ≥ s.bits_per_record then (.error .EndOfRecord, s)
  else
    let t := maybe_update_payload s
    if t.payload = -1 then (.error .EndOfStream, t)
    else
      (.ok (t.payload % 2 = 1),
       { t with payload := t.payload / 2, bits_available := t.bits_available - 1,
                position := t.position + 1 })

/-- `MeasureRecordReaderFormatB8::is_end_of_record` (mutating: it may fetch
the next payload byte). -/
def is_end_of_record (s : FormatB8) : Bool × FormatB8 :=
  let t := maybe_update_payload s
  (decide ((t.bits_available = 0 ∧ t.payload = -1) ∨ t.position ≥ t.bits_per_record), t)

/-- `MeasureRecordReaderFormatB8::read_bytes`: bulk `fread` path when no
partial byte is pending, otherwise the generic fallback.  `fread` copies
`min(requested, available)` whole bytes from the stream into the buffer. -/
def read_bytes (s : FormatB8) (data : List Nat) : (Except Err Nat) × List Nat × FormatB8 :=
  if s.position ≥ s.bits_per_record then (.ok 0, data, s)
  else if s.bits_available > 0 then
    genReadBytes read_bit is_end_of_record (fun t => t.position) (fun t => t.bits_per_record) s data
  else
    let n_bits := min (8 * data.length) (s.bits_per_record - s.position)
    let n_bytes := (n_bits + 7) / 8
    let bytes_read := min n_bytes s.input.length
    let n_bits' := min (8 * bytes_read) n_bits
    (.ok n_bits',
     s.input.take bytes_read ++ data.drop bytes_read,
     { s with input := s.input.drop bytes_read, position := s.position + n_bits' })

end FormatB8

/-- `MeasureRecordReaderFormatB8` constructor body. -/
def initB8 (input : List Nat) (bits_per_record : Nat) : FormatB8 :=
  { input := input, bits_per_record := bits_per_record, position := 0,
    payload := 0, bits_available := 0 }

/-! ## FormatHits operations -/

/-- The digit loop never produces a longer stream. -/
theorem ruLoop_len (l : List Nat) : ∀ v next : Int, ((ruLoop v next l).2.2).length ≤ l.length := by
  induction l with
  | nil =>
    intro v next
    unfold ruLoop
    split <;> simp
  | cons c rest ih =>
    intro v next
    unfold ruLoop
    split
    · exact le_trans (ih _ _) (by simp)
    · simp

/-- `read_unsigned_int` never produces a longer stream. -/
theorem read_unsigned_int_len_le (l : List Nat) :
    ((read_unsigned_int l).2.2).length ≤ l.length := by
  match l with
  | [] =>
    simp [read_unsigned_int, getc, isdigit]
  | c :: rest =>
    simp only [read_unsigned_int, getc]
    split
    · exact le_trans (ruLoop_len rest 0 (c : Int)) (by simp)
    · simp

/-- When `read_unsigned_int` reports a non-EOF `next` character it consumed
at least one byte. -/
theorem read_unsigned_int_len_lt (l : List Nat)
    (h : (read_unsigned_int l).2.1 ≠ -1) :
    ((read_unsigned_int l).2.2).length < l.length := by
  match l with
  | [] =>
    exfalso
    apply h
    simp [read_unsigned_int, getc, isdigit]
  | c :: rest =>
    simp only [read_unsigned_int, getc]
    split
    · exact lt_of_le_of_lt (ruLoop_len rest 0 (c : Int)) (by simp)
    · simp

namespace FormatHits

/-- `MeasureRecordReaderFormatHits::update_next_hit`. -/
def update_next_hit (s : FormatHits) : (Except Err Unit) × FormatHits :=
  match read_unsigned_int s.input with
  | (none, next, rest) =>
    let s' := { s with separator := next, input := rest }
    if next ≠ 10 ∧ next ≠ -1 then (.error .MalformedInput, s') else (.ok (), s')
  | (some v, next, rest) =>
    let s' := { s with next_hit := v, separator := next, input := rest }
    if next ≠ 44 ∧ next ≠ 10 then (.error .MalformedInput, s')
    else if v < (s.position : Int) then (.error .MalformedInput, s')
    else if (s.bits_per_record : Int) ≤ v then (.error .MalformedInput, s')
    else (.ok (), s')

/-- In every branch `update_next_hit` stores `read_unsigned_int`'s trailing
stream and separator character into the state. -/
theorem update_next_hit_fields (s : FormatHits) :
    ((update_next_hit s).2).input = (read_unsigned_int s.input).2.2 ∧
    ((update_next_hit s).2).separator = (read_unsigned_int s.input).2.1 := by
  unfold update_next_hit
  rcases hres : read_unsigned_int s.input with ⟨ov, next, rest⟩
  cases ov <;> dsimp only <;> split_ifs <;> simp

theorem update_next_hit_input_le (s : FormatHits) :
    ((update_next_hit s).2).input.length ≤ s.input.length := by
  rw [(update_next_hit_fields s).1]
  exact read_unsigned_int_len_le s.input

theorem update_next_hit_sep_lt (s : FormatHits)
    (h : ((update_next_hit s).2).separator ≠ -1) :
    ((update_next_hit s).2).input.length < s.input.length := by
  rw [(update_next_hit_fields s).1]
  apply read_unsigned_int_len_lt
  rw [← (update_next_hit_fields s).2]
  exact h

/-- `MeasureRecordReaderFormatHits::read_bit`. -/
def read_bit (s : FormatHits) : (Except Err Bool) × FormatHits :=
  if s.position ≥ s.bits_per_record then (.error .EndOfRecord, s)
  else if (s.position : Int) > s.next_hit ∧ s.separator = 44 then
    match update_next_hit s with
    | (.error e, s') => (.error e, s')
    | (.ok (), s') =>
      (.ok (s'.next_hit = (s'.position : Int)), { s' with position := s'.position + 1 })
  else (.ok (s.next_hit = (s.position : Int)), { s with position := s.position + 1 })

/-- The `while (separator == ',') update_next_hit();` drain loop of
`MeasureRecordReaderFormatHits::next_record`. -/
def drainHits (s : FormatHits) : (Except Err Unit) × FormatHits :=
  if hsep : s.separator = 44 then
    match h : update_next_hit s with
    | (.error e, s') => (.error e, s')
    | (.ok (), s') => drainHits s'
  else (.ok (), s)
termination_by s.input.length + (if s.separator = 44 then 1 else 0)
decreasing_by
  have h1 := update_next_hit_input_le s
  have h2 := update_next_hit_sep_lt s
  rw [h] at h1 h2
  simp only at h1 h2
  simp only [hsep, if_true]
  by_cases hs : s'.separator = 44
  · have := h2 (by rw [hs]; decide)
    simp only [hs, if_true]
    omega
  · simp only [hs, if_false]
    omega

/-- `MeasureRecordReaderFormatHits::next_record`. -/
def next_record (s : FormatHits) : (Except Err Bool) × FormatHits :=
  match drainHits s with
  | (.error e, s') => (.error e, s')
  | (.ok (), s1) =>
    let s2 := { s1 with next_hit := -1, position := 0 }
    match update_next_hit s2 with
    | (.error e, s') => (.error e, s')
    | (.ok (), s3) => (.ok (s3.separator ≠ -1), s3)

/-- `is_end_of_record` is inherited from the base class. -/
def is_end_of_record (s : FormatHits) : Bool :=
  s.position ≥ s.bits_per_record

/-- `read_bytes` is inherited from the base class. -/
def read_bytes (s : FormatHits) (data : List Nat) : (Except Err Nat) × List Nat × FormatHits :=
  genReadBytes read_bit (fun t => (is_end_of_record t, t))
    (fun t => t.position) (fun t => t.bits_per_record) s data

end FormatHits

/-- `MeasureRecordReaderFormatHits` constructor body: `update_next_hit()`.
(`separator` is uninitialised in the C++ source; it is assigned by this very
call before any use, so the placeholder `0` is unobservable.) -/
def initHits (input : List Nat) (bits_per_record : Nat) : (Except Err Unit) × FormatHits :=
  FormatHits.update_next_hit
    { input := input, bits_per_record := bits_per_record, position := 0,
      separator := 0, next_hit := -1 }

/-! ## FormatR8 operations -/

namespace FormatR8

/-- Descriptor-byte loop of `update_run_length`:
`while (r == 0xFF) { run_length_0s += 0xFF; r = getc(in); } if (r > 0)
run_length_0s += r;`.  Returns the accumulated zero-run and the remaining
stream (an EOF met inside the loop contributes nothing, as in the source). -/
def readRun : List Nat → Nat → Nat × List Nat
  | [], acc => (acc, [])
  | r :: rest, acc => if r = 255 then readRun rest (acc + 255) else (acc + r, rest)

/-- `MeasureRecordReaderFormatR8::update_run_length`; `none` models the
`return false` taken when the first `getc` hits EOF. -/
def update_run_length (s : FormatR8) : Option FormatR8 :=
  match s.input with
  | [] => none
  | r :: rest =>
    let p := readRun (r :: rest) 0
    some { s with input := p.2, run_length_0s := p.1, run_length_1s := 1,
                  generated_0s := 0, generated_1s := 0 }

/-- `MeasureRecordReaderFormatR8::read_bit`. -/
def read_bit (s : FormatR8) : (Except Err Bool) × FormatR8 :=
  if s.position ≥ s.bits_per_record then (.error .EndOfRecord, s)
  else if s.generated_1s < s.run_length_1s then
    (.ok true, { s with generated_1s := s.generated_1s + 1, position := s.position + 1 })
  else if s.generated_0s < s.run_length_0s then
    (.ok false, { s with generated_0s := s.generated_0s + 1, position := s.position + 1 })
  else
    match update_run_length s with
    | none => (.error .EndOfStream, s)
    | some s' =>
      (.ok true, { s' with generated_1s := s'.generated_1s + 1, position := s'.position + 1 })

/-- `MeasureRecordReaderFormatR8::is_end_of_record` (mutating: it may fetch
the next run descriptor). -/
def is_end_of_record (s : FormatR8) : Bool × FormatR8 :=
  if s.position ≥ s.bits_per_record then (true, s)
  else if s.generated_0s < s.run_length_0s then (false, s)
  else if s.generated_1s < s.run_length_1s then (false, s)
  else
    match update_run_length s with
    | none => (true, s)
    | some s' => (false, s')

/-- Inner bit loop of `MeasureRecordReaderFormatR8::read_bytes` (note: the
end-of-record test comes before each bit, unlike the base class). -/
def r8Byte (s : FormatR8) (b : Nat) (i : Nat) : (Except Err (Nat × Bool)) × Nat × FormatR8 :=
  if i < 8 then
    match is_end_of_record s with
    | (true, s') => (.ok (0, true), b, s')
    | (false, s') =>
      match read_bit s' with
      | (.error e, s'') => (.error e, b, s'')
      | (.ok bit, s'') =>
        match r8Byte s'' (b ||| (bit.toNat <<< i)) (i + 1) with
        | (.error e, bf, sf) => (.error e, bf, sf)
        | (.ok (n, ended), bf, sf) => (.ok (n + 1, ended), bf, sf)
  else (.ok (0, false), b, s)
termination_by 8 - i

/-- Outer loop of `MeasureRecordReaderFormatR8::read_bytes`, with the
whole-zero-byte fast path. -/
def r8Loop : FormatR8 → List Nat → (Except Err Nat) × List Nat × FormatR8
  | s, [] => (.ok 0, [], s)
  | s, _b :: rest =>
    if s.run_length_0s ≥ s.generated_0s + 8 ∧ s.bits_per_record ≥ s.position + 8 then
      match r8Loop { s with position := s.position + 8, generated_0s := s.generated_0s + 8 } rest with
      | (.error e, rest', sf) => (.error e, 0 :: rest', sf)
      | (.ok n, rest', sf) => (.ok (n + 8), 0 :: rest', sf)
    else
      match r8Byte s 0 0 with
      | (.error e, bf, sf) => (.error e, bf :: rest, sf)
      | (.ok (n, true), bf, sf) => (.ok n, bf :: rest, sf)
      | (.ok (n, false), bf, sf) =>
        match r8Loop sf rest with
        | (.error e, rest', sf') => (.error e, bf :: rest', sf')
        | (.ok n2, rest', sf') => (.ok (n + n2), bf :: rest', sf')

/-- `MeasureRecordReaderFormatR8::read_bytes`. -/
def read_bytes (s : FormatR8) (data : List Nat) : (Except Err Nat) × List Nat × FormatR8 :=
  if s.position ≥ s.bits_per_record then (.ok 0, data, s) else r8Loop s data

end FormatR8

/-- `MeasureRecordReaderFormatR8` constructor body: field initialisers from
the header (`generated_1s = 1`), then `update_run_length();
run_length_1s = 0;`. -/
def initR8 (input : List Nat) (bits_per_record : Nat) : FormatR8 :=
  let s0 : FormatR8 :=
    { input := input, bits_per_record := bits_per_record, position := 0,
      run_length_0s := 0, run_length_1s := 0, generated_0s := 0, generated_1s := 1 }
  let s1 := match FormatR8.update_run_length s0 with
            | none => s0
            | some t => t
  { s1 with run_length_1s := 0 }

/-! ## FormatDets operations -/

/-- The bytes of the literal keyword `"shot"`. -/
def shot_keyword : List Nat := [115, 104, 111, 116]

namespace FormatDets

/-- `MeasureRecordReaderFormatDets::update_next_shot`.  The result-type
character is a C++ `char`, so bytes `≥ 128` are truncated to negative values
(in particular byte `255` compares equal to `EOF`). -/
def update_next_shot (s : FormatDets) : (Except Err Unit) × FormatDets :=
  let p := getc s.input
  let t : Int := if p.1 ≥ 128 then p.1 - 256 else p.1
  if t = -1 then (.ok (), { s with separator := -1, input := p.2 })
  else if t ≠ 77 ∧ t ≠ 68 ∧ t ≠ 76 then (.error .MalformedInput, { s with input := p.2 })
  else
    match read_unsigned_int p.2 with
    | (none, next, rest) => (.error .MalformedInput, { s with separator := next, input := rest })
    | (some v, next, rest) =>
      let s1 := { s with next_shot := v, separator := next, input := rest }
      if next ≠ 32 ∧ next ≠ 10 then (.error .MalformedInput, s1)
      else
        let s2 := if t ≠ s.result_type
                  then { s1 with next_shot := v + (s.position : Int), result_type := t }
                  else s1
        if s2.next_shot < (s2.position : Int) then (.error .MalformedInput, s2)
        else if (s2.bits_per_record : Int) ≤ s2.next_shot then (.error .MalformedInput, s2)
        else (.ok (), s2)

/-- On an exhausted stream `update_next_shot` takes the EOF branch. -/
theorem update_next_shot_empty (s : FormatDets) (h : s.input = []) :
    update_next_shot s = (.ok (), { s with separator := -1, input := [] }) := by
  unfold update_next_shot
  rw [h]
  simp [getc]

/-- On a non-empty stream every branch of `update_next_shot` consumes at
least the result-type byte. -/
theorem update_next_shot_consumes (s : FormatDets) (h : s.input ≠ []) :
    ((update_next_shot s).2).input.length < s.input.length := by
  obtain ⟨c, rest0, hl⟩ : ∃ c rest0, s.input = c :: rest0 := by
    cases hc : s.input with
    | nil => exact absurd hc h
    | cons a b => exact ⟨a, b, rfl⟩
  unfold update_next_shot
  rw [hl]
  simp only [getc]
  have hru_le := read_unsigned_int_len_le rest0
  rcases hres : read_unsigned_int rest0 with ⟨ov, next, rest⟩
  rw [hres] at hru_le
  simp only at hru_le
  cases ov <;> dsimp only <;> split_ifs <;> simp <;> omega

theorem update_next_shot_input_le (s : FormatDets) :
    ((update_next_shot s).2).input.length ≤ s.input.length := by
  by_cases h : s.input = []
  · rw [update_next_shot_empty s h]
    simp [h]
  · exact le_of_lt (update_next_shot_consumes s h)

/-- If `update_next_shot` leaves `' '` as the separator it consumed at least
one byte (an empty stream forces the EOF branch, whose separator is `-1`). -/
theorem update_next_shot_sep_lt (s : FormatDets)
    (h : ((update_next_shot s).2).separator = 32) :
    ((update_next_shot s).2).input.length < s.input.length := by
  by_cases he : s.input = []
  · rw [update_next_shot_empty s he] at h
    simp at h
  · exact update_next_shot_consumes s he

/-- `MeasureRecordReaderFormatDets::read_bit`. -/
def read_bit (s : FormatDets) : (Except Err Bool) × FormatDets :=
  if s.position ≥ s.bits_per_record then (.error .EndOfRecord, s)
  else if (s.position : Int) > s.next_shot ∧ s.separator = 32 then
    match update_next_shot s with
    | (.error e, s') => (.error e, s')
    | (.ok (), s') =>
      (.ok (s'.next_shot = (s'.position : Int)), { s' with position := s'.position + 1 })
  else (.ok (s.next_shot = (s.position : Int)), { s with position := s.position + 1 })

/-- The `while (separator == ' ') update_next_shot();` drain loop of
`MeasureRecordReaderFormatDets::next_record`. -/
def drainDets (s : FormatDets) : (Except Err Unit) × FormatDets :=
  if hsep : s.separator = 32 then
    match h : update_next_shot s with
    | (.error e, s') => (.error e, s')
    | (.ok (), s') => drainDets s'
  else (.ok (), s)
termination_by s.input.length + (if s.separator = 32 then 1 else 0)
decreasing_by
  have h1 := update_next_shot_input_le s
  have h2 := update_next_shot_sep_lt s
  rw [h] at h1 h2
  simp only at h1 h2
  simp only [hsep, if_true]
  by_cases hs : s'.separator = 32
  · have := h2 hs
    simp only [hs, if_true]
    omega
  · simp only [hs, if_false]
    omega

/-- `MeasureRecordReaderFormatDets::next_record`. -/
def next_record (s : FormatDets) : (Except Err Bool) × FormatDets :=
  match drainDets s with
  | (.error e, s') => (.error e, s')
  | (.ok (), s1) =>
    match maybe_consume_keyword shot_keyword s1.input with
    | (.error e, next, rest) => (.error e, { s1 with separator := next, input := rest })
    | (.ok false, next, rest) => (.ok false, { s1 with separator := next, input := rest })
    | (.ok true, next, rest) =>
      let s2 := { s1 with separator := next, input := rest, next_shot := -1, position := 0 }
      match update_next_shot s2 with
      | (.error e, s') => (.error e, s')
      | (.ok (), s3) => (.ok true, s3)

/-- `MeasureRecordReaderFormatDets::current_result_type`. -/
def current_result_type (s : FormatDets) : Int := s.result_type

/-- `is_end_of_record` is inherited from the base class. -/
def is_end_of_record (s : FormatDets) : Bool :=
  s.position ≥ s.bits_per_record

/-- `read_bytes` is inherited from the base class. -/
def read_bytes (s : FormatDets) (data : List Nat) : (Except Err Nat) × List Nat × FormatDets :=
  genReadBytes read_bit (fun t => (is_end_of_record t, t))
    (fun t => t.position) (fun t => t.bits_per_record) s data

end FormatDets

/-- `MeasureRecordReaderFormatDets` constructor body: field initialisers from
the header, then the mandatory `shot` keyword and the first token.  `ok false`
from the keyword scan (EOF at start) raises `Need a "shot" to begin record`. -/
def initDets (input : List Nat) (n_measurements : Nat) : (Except Err Unit) × FormatDets :=
  let s0 : FormatDets :=
    { input := input, bits_per_record := n_measurements, position := 0,
      result_type := 77, separator := 10, next_shot := -1 }
  match maybe_consume_keyword shot_keyword s0.input with
  | (.error e, next, rest) => (.error e, { s0 with separator := next, input := rest })
  | (.ok false, next, rest) => (.error .MalformedInput, { s0 with separator := next, input := rest })
  | (.ok true, next, rest) => FormatDets.update_next_shot { s0 with separator := next, input := rest }

/-! ## The factory `MeasureRecordReader::make` -/

inductive SampleFormat where
  | SAMPLE_FORMAT_01
  | SAMPLE_FORMAT_B8
  | SAMPLE_FORMAT_DETS
  | SAMPLE_FORMAT_HITS
  | SAMPLE_FORMAT_PTB64
  | SAMPLE_FORMAT_R8
deriving DecidableEq, Repr

/-- A constructed reader: the closed union of the five concrete variants. -/
inductive Reader where
  | fmt01 : Format01 → Reader
  | fmtB8 : FormatB8 → Reader
  | fmtDets : FormatDets → Reader
  | fmtHits : FormatHits → Reader
  | fmtR8 : FormatR8 → Reader
deriving DecidableEq, Repr

/-- `MeasureRecordReader::make`.  The detection-event / logical-observable
validation happens first; the `bits_per_record > SSIZE_MAX` check sits in the
base-class constructor, hence runs per dispatched variant (never for PTB64). -/
def make (input : List Nat) (input_format : SampleFormat)
    (n_measurements n_detection_events n_logical_observables : Nat) : Except Err Reader :=
  if input_format ≠ .SAMPLE_FORMAT_DETS ∧ n_detection_events ≠ 0 then .error .ConfigurationError
  else if input_format ≠ .SAMPLE_FORMAT_DETS ∧ n_logical_observables ≠ 0 then .error .ConfigurationError
  else
    match input_format with
    | .SAMPLE_FORMAT_01 =>
      if n_measurements > SSIZE_MAX then .error .ConfigurationError
      else .ok (.fmt01 (init01 input n_measurements))
    | .SAMPLE_FORMAT_B8 =>
      if n_measurements > SSIZE_MAX then .error .ConfigurationError
      else .ok (.fmtB8 (initB8 input n_measurements))
    | .SAMPLE_FORMAT_DETS =>
      if n_measurements > SSIZE_MAX then .error .ConfigurationError
      else
        match initDets input n_measurements with
        | (.error e, _) => .error e
        | (.ok (), s) => .ok (.fmtDets s)
    | .SAMPLE_FORMAT_HITS =>
      if n_measurements > SSIZE_MAX then .error .ConfigurationError
      else
        match initHits input n_measurements with
        | (.error e, _) => .error e
        | (.ok (), s) => .ok (.fmtHits s)
    | .SAMPLE_FORMAT_PTB64 => .error .ConfigurationError
    | .SAMPLE_FORMAT_R8 =>
      if n_measurements > SSIZE_MAX then .error .ConfigurationError
      else .ok (.fmtR8 (initR8 input n_measurements))

/-! ## Iterating `read_bit` -/

/-- Read `n` successive bits with a format's `read_bit`, stopping at the
first error (spec-side iteration helper, not source code). -/
def readBitsG {σ : Type} (rb : σ → (Except Err Bool) × σ) :
    σ → Nat → (Except Err (List Bool)) × σ
  | s, 0 => (.ok [], s)
  | s, n + 1 =>
    match rb s with
    | (.error e, s') => (.error e, s')
    | (.ok b, s') =>
      match readBitsG rb s' n with
      | (.error e, s'') => (.error e, s'')
      | (.ok bs, s'') => (.ok (b :: bs), s'')

/-! ## Small-step helper lemmas for the well-founded definitions -/

/-- `drainHits` is the identity when the separator is not `','`. -/
theorem drainHits_else (s : FormatHits) (h : ¬ s.separator = 44) :
    FormatHits.drainHits s = (.ok (), s) := by
  rw [FormatHits.drainHits]
  simp [h]

/-- `drainDets` is the identity when the separator is not `' '`. -/
theorem drainDets_else (s : FormatDets) (h : ¬ s.separator = 32) :
    FormatDets.drainDets s = (.ok (), s) := by
  rw [FormatDets.drainDets]
  simp [h]

/-! ## Claim C8 -/

/-- C8: for the Hits format with `bits_per_record = 8`, the input `"1,3,7\n"`
constructs successfully, reading 8 bits yields exactly `[0,1,0,1,0,0,0,1]`,
and a subsequent `next_record()` at end-of-stream returns `false` without
raising an error. -/
theorem c8_hits_decode_and_next_record :
    (initHits [49, 44, 51, 44, 55, 10] 8).1 = .ok () ∧
    (readBitsG FormatHits.read_bit (initHits [49, 44, 51, 44, 55, 10] 8).2 8).1 =
      .ok [false, true, false, true, false, false, false, true] ∧
    (FormatHits.next_record
      (readBitsG FormatHits.read_bit (initHits [49, 44, 51, 44, 55, 10] 8).2 8).2).1 =
      .ok false := by
  refine ⟨rfl, rfl, ?_⟩
  have h : (readBitsG FormatHits.read_bit (initHits [49, 44, 51, 44, 55, 10] 8).2 8).2 =
      { input := [], bits_per_record := 8, position := 8, separator := 10, next_hit := 7 } := rfl
  rw [h]
  unfold FormatHits.next_record
  rw [drainHits_else _ (by decide)]
  rfl

/-! ## Claim C10 -/

/-- C10: Format01's `read_bit` is atomic on failure: whenever it returns an
error, the reader state (position, payload, stream) is unchanged, and
repeating the call yields the same error with the state still unchanged. -/
theorem c10_format01_read_bit_atomic (s : Format01) (e : Err)
    (h : (Format01.read_bit s).1 = .error e) :
    (Format01.read_bit s).2 = s ∧
    Format01.read_bit ((Format01.read_bit s).2) = (.error e, (Format01.read_bit s).2) := by
  have hstate : (Format01.read_bit s).2 = s := by
    unfold Format01.read_bit at h ⊢
    split_ifs at h ⊢ <;> simp_all
  have heq : Format01.read_bit s = (.error e, s) := Prod.ext_iff.mpr ⟨h, hstate⟩
  exact ⟨hstate, by rw [hstate, heq]⟩

/-- Witness for C10 at a concrete input: a Format01 reader on an empty
stream fails with `EndOfStream` and is unchanged by the failed call. -/
theorem c10_format01_read_bit_atomic_witness :
    (Format01.read_bit (init01 [] 5)).2 = init01 [] 5 ∧
    Format01.read_bit ((Format01.read_bit (init01 [] 5)).2) =
      (.error .EndOfStream, (Format01.read_bit (init01 [] 5)).2) :=
  c10_format01_read_bit_atomic (init01 [] 5) .EndOfStream rfl

/-! ## Claim C1 (counterexample and amended statement) -/

/-- C1 (counterexample): for Format01 with `bits_per_record = 1` on the
well-formed input `"0"` (record terminated by end-of-stream), reading the
single bit succeeds and leaves `is_end_of_record()` true, but one further
`read_bit()` fails with `EndOfStream`, not `EndOfRecord` as the claim
states for every format and every well-formed input. -/
theorem c1_counterexample :
    (readBitsG Format01.read_bit (init01 [48] 1) 1).1 = .ok [false] ∧
    Format01.is_end_of_record (readBitsG Format01.read_bit (init01 [48] 1) 1).2 = true ∧
    (Format01.read_bit (readBitsG Format01.read_bit (init01 [48] 1) 1).2).1 =
      .error .EndOfStream ∧
    (Format01.read_bit (readBitsG Format01.read_bit (init01 [48] 1) 1).2).1 ≠
      .error .EndOfRecord :=
  ⟨rfl, rfl, rfl, fun hc => Err.noConfusion (Except.error.inj hc)⟩

/-! ## Claim C2 (counterexample) -/

/-- C2 (counterexample): for the R8 format, the descriptor byte `0x00` should
decode to a bare 1-bit according to the claim, but with `bits_per_record = 1`
the very first `read_bit` on input `[0x00]` raises `EndOfStream`: the
terminating 1-bit of a descriptor is only emitted when the *next* descriptor
is successfully fetched. -/
theorem c2_counterexample :
    (FormatR8.read_bit (initR8 [0] 1)).1 = .error .EndOfStream ∧
    (FormatR8.read_bit (initR8 [0] 1)).1 ≠ .ok true :=
  ⟨rfl, fun hc => Except.noConfusion hc⟩

/-! ## Claim C3 (counterexample) -/

/-- C3 (counterexample): on an empty input stream with `bits_per_record = 8`
and a 1-byte buffer, the overridden bulk `read_bytes` of both R8 and B8
returns 0, while the generic bit-by-bit fallback path raises `EndOfStream`
on the same input — the two paths are not equivalent for every input. -/
theorem c3_counterexample :
    (FormatR8.read_bytes (initR8 [] 8) [0]).1 = .ok 0 ∧
    (genReadBytes FormatR8.read_bit FormatR8.is_end_of_record
      (fun t => t.position) (fun t => t.bits_per_record) (initR8 [] 8) [0]).1 =
      .error .EndOfStream ∧
    (FormatB8.read_bytes (initB8 [] 8) [0]).1 = .ok 0 ∧
    (genReadBytes FormatB8.read_bit FormatB8.is_end_of_record
      (fun t => t.position) (fun t => t.bits_per_record) (initB8 [] 8) [0]).1 =
      .error .EndOfStream := by
  have h : initR8 [] 8 = { input := [], bits_per_record := 8, position := 0, run_length_0s := 0, run_length_1s := 0, generated_0s := 0, generated_1s := 1 } := rfl
  refine ⟨?_, ?_, rfl, ?_⟩
  · rw [FormatR8.read_bytes, h]
    simp [FormatR8.r8Loop, FormatR8.r8Byte, FormatR8.is_end_of_record, FormatR8.update_run_length]
  · rw [genReadBytes, h]
    simp [genLoop, genByte, FormatR8.read_bit, FormatR8.is_end_of_record,
          FormatR8.update_run_length]
  · rw [genReadBytes]
    simp [genLoop, genByte, FormatB8.read_bit, FormatB8.is_end_of_record,
          FormatB8.maybe_update_payload, initB8, getc]

/-! ## Claim C5 (counterexample) -/

/-- C5 (counterexample): for Format01 a record terminated early by a newline
(position 0, `bits_per_record = 8`) has `is_end_of_record()` true, yet
`read_bytes` raises `EndOfRecord` instead of returning 0: only the
`position ≥ bits_per_record` case returns 0. -/
theorem c5_counterexample :
    Format01.is_end_of_record (init01 [10] 8) = true ∧
    (Format01.read_bytes (init01 [10] 8) [0]).1 = .error .EndOfRecord := by
  refine ⟨rfl, ?_⟩
  rw [Format01.read_bytes, genReadBytes]
  simp [genLoop, genByte, Format01.read_bit, init01, getc]

/-! ## Claim C6 (counterexample) -/

/-- C6 (counterexample): a Format01 reader with `bits_per_record = 2` that
has fully consumed its record from the stream `"000\n"` calls `next_record`;
the skip loop consumes no characters at all (the stream is untouched), yet
the call raises the "record too long" error (`MalformedInput`) — refuting
the claim that the error occurs exactly when the skipped distance exceeds
the record length, and that otherwise the call resets the cursor and
returns. -/
theorem c6_counterexample :
    (Format01.nr_loop (readBitsG Format01.read_bit (init01 [48, 48, 48, 10] 2) 2).2).input =
      ((readBitsG Format01.read_bit (init01 [48, 48, 48, 10] 2) 2).2).input ∧
    (Format01.next_record (readBitsG Format01.read_bit (init01 [48, 48, 48, 10] 2) 2).2).1 =
      .error .MalformedInput := by
  have h : (readBitsG Format01.read_bit (init01 [48, 48, 48, 10] 2) 2).2 =
      { input := [10], bits_per_record := 2, position := 2, payload := 48 } := rfl
  have hloop : Format01.nr_loop { input := [10], bits_per_record := 2, position := 2, payload := 48 } =
      { input := [10], bits_per_record := 2, position := 3, payload := 48 } := by
    rw [Format01.nr_loop]
    simp
  constructor
  · rw [h, hloop]
  · rw [h]
    unfold Format01.next_record
    rw [hloop]
    rfl

/-! ## Claim C9 (counterexample) -/

/-- C9 (counterexample): with entirely valid construction parameters
(format DETS, `bits_per_record = 1 ≤ SSIZE_MAX`, zero counts) construction
still fails, because the DETS constructor parses the stream and an empty
stream has no `shot` keyword; so "for valid parameters construction
succeeds" is false. -/
theorem c9_counterexample :
    1 ≤ SSIZE_MAX ∧ make [] .SAMPLE_FORMAT_DETS 1 0 0 = .error .MalformedInput := by
  constructor
  · norm_num [SSIZE_MAX]
  · rfl

/-! ## Claim C5 (amended statement) -/

/-- C5 (amended): for every format variant, `read_bytes` called with
`position ≥ bits_per_record` returns 0, writes nothing (the buffer is
returned unchanged) and raises no error; for Format01, however, a record
terminated early by a newline (`position < bits_per_record`) makes
`read_bytes` raise `EndOfRecord` instead of returning 0. -/
theorem c5_amended :
    (∀ (s : Format01) (buf : List Nat), s.position ≥ s.bits_per_record →
        Format01.read_bytes s buf = (.ok 0, buf, s)) ∧
    (∀ (s : FormatB8) (buf : List Nat), s.position ≥ s.bits_per_record →
        FormatB8.read_bytes s buf = (.ok 0, buf, s)) ∧
    (∀ (s : FormatR8) (buf : List Nat), s.position ≥ s.bits_per_record →
        FormatR8.read_bytes s buf = (.ok 0, buf, s)) ∧
    (∀ (s : FormatHits) (buf : List Nat), s.position ≥ s.bits_per_record →
        FormatHits.read_bytes s buf = (.ok 0, buf, s)) ∧
    (∀ (s : FormatDets) (buf : List Nat), s.position ≥ s.bits_per_record →
        FormatDets.read_bytes s buf = (.ok 0, buf, s)) ∧
    (∀ (s : Format01) (b : Nat) (buf : List Nat), s.payload = 10 →
        s.position < s.bits_per_record →
        (Format01.read_bytes s (b :: buf)).1 = .error .EndOfRecord) := by
  refine ⟨?_, ?_, ?_, ?_, ?_, ?_⟩
  · intro s buf h
    simp [Format01.read_bytes, genReadBytes, h]
  · intro s buf h
    simp [FormatB8.read_bytes, h]
  · intro s buf h
    simp [FormatR8.read_bytes, h]
  · intro s buf h
    simp [FormatHits.read_bytes, genReadBytes, h]
  · intro s buf h
    simp [FormatDets.read_bytes, genReadBytes, h]
  · intro s b buf hpay hpos
    rw [Format01.read_bytes, genReadBytes, if_neg (by omega)]
    rw [genLoop, genByte]
    simp [Format01.read_bit, hpay]

/-- Witness for C5 (amended) at concrete inputs. -/
theorem c5_amended_witness :
    Format01.read_bytes (init01 [] 0) [7] = (.ok 0, [7], init01 [] 0) ∧
    FormatB8.read_bytes (initB8 [] 0) [7] = (.ok 0, [7], initB8 [] 0) ∧
    FormatR8.read_bytes (initR8 [] 0) [7] = (.ok 0, [7], initR8 [] 0) ∧
    (Format01.read_bytes (init01 [10] 8) [0]).1 = .error .EndOfRecord :=
  ⟨c5_amended.1 (init01 [] 0) [7] (by decide),
   c5_amended.2.1 (initB8 [] 0) [7] (by decide),
   c5_amended.2.2.1 (initR8 [] 0) [7] (by decide),
   c5_amended.2.2.2.2.2 (init01 [10] 8) 0 [] rfl (by decide)⟩

/-! ## Claim C6 (amended statement) -/

/-- The skip loop stops immediately on a newline or EOF payload. -/
theorem nr_loop_term (s : Format01) (h : s.payload = -1 ∨ s.payload = 10) :
    Format01.nr_loop s = s := by
  rw [Format01.nr_loop]
  simp [h]

/-- With a non-terminator payload and the cursor already at the record
length, the skip loop only bumps the cursor past the limit. -/
theorem nr_loop_at_end (s : Format01) (hne : ¬(s.payload = -1 ∨ s.payload = 10))
    (hpos : s.position = s.bits_per_record) :
    Format01.nr_loop s = { s with position := s.position + 1 } := by
  rw [Format01.nr_loop, if_neg hne]
  dsimp only
  rw [if_neg (by omega)]

/-- Starting strictly below the record length, the skip loop never moves the
cursor beyond it (and never touches `bits_per_record`). -/
theorem nr_loop_le : ∀ (fuel : Nat) (s : Format01),
    s.bits_per_record - s.position ≤ fuel → s.position < s.bits_per_record →
    (Format01.nr_loop s).position ≤ s.bits_per_record ∧
    (Format01.nr_loop s).bits_per_record = s.bits_per_record := by
  intro fuel
  induction fuel with
  | zero => intro s hf hp; omega
  | succ n ih =>
    intro s hf hp
    rw [Format01.nr_loop]
    dsimp only
    split_ifs with h1 h2
    · exact ⟨le_of_lt hp, rfl⟩
    · exact ih _ (by dsimp only; omega) (by dsimp only; omega)
    · exact ⟨by dsimp only; omega, rfl⟩

/-- C6 (amended): for Format01 with `position ≤ bits_per_record`,
`next_record` raises the "record too long" error (`MalformedInput`) exactly
when the cursor is already at `bits_per_record` and the pending character is
not a newline or EOF; otherwise it resets the cursor to 0 and returns `true`
exactly when another character follows. -/
theorem c6_amended (s : Format01) (hle : s.position ≤ s.bits_per_record) :
    ((Format01.next_record s).1 = .error .MalformedInput ↔
      (s.position = s.bits_per_record ∧ ¬s.payload = -1 ∧ ¬s.payload = 10)) ∧
    (¬(s.position = s.bits_per_record ∧ ¬s.payload = -1 ∧ ¬s.payload = 10) →
      ((Format01.next_record s).2.position = 0 ∧
       (Format01.next_record s).1 = .ok (decide ((Format01.next_record s).2.payload ≠ -1)))) := by
  by_cases hterm : s.payload = -1 ∨ s.payload = 10
  · have hl := nr_loop_term s hterm
    unfold Format01.next_record
    rw [hl, if_neg (by omega)]
    refine ⟨⟨fun hc => absurd hc (by simp), fun hc => absurd hterm (by tauto)⟩,
            fun _ => ⟨rfl, rfl⟩⟩
  · by_cases hpos : s.position = s.bits_per_record
    · have hl := nr_loop_at_end s hterm hpos
      unfold Format01.next_record
      rw [hl, if_pos (by dsimp only; omega)]
      refine ⟨⟨fun _ => ⟨hpos, by tauto⟩, fun _ => rfl⟩, fun hnc => absurd ⟨hpos, by tauto⟩ hnc⟩
    · have hlt : s.position < s.bits_per_record := lt_of_le_of_ne hle hpos
      obtain ⟨hA, hB⟩ := nr_loop_le (s.bits_per_record - s.position) s le_rfl hlt
      unfold Format01.next_record
      rw [if_neg (by omega)]
      refine ⟨⟨fun hc => absurd hc (by simp), fun hc => absurd hc.1 hpos⟩,
              fun _ => ⟨rfl, rfl⟩⟩

/-- Witness for C6 (amended) at a concrete input. -/
theorem c6_amended_witness :
    ((Format01.next_record (init01 [10] 1)).1 = .error .MalformedInput ↔
      ((init01 [10] 1).position = (init01 [10] 1).bits_per_record ∧
       ¬(init01 [10] 1).payload = -1 ∧ ¬(init01 [10] 1).payload = 10)) ∧
    (¬((init01 [10] 1).position = (init01 [10] 1).bits_per_record ∧
       ¬(init01 [10] 1).payload = -1 ∧ ¬(init01 [10] 1).payload = 10) →
      ((Format01.next_record (init01 [10] 1)).2.position = 0 ∧
       (Format01.next_record (init01 [10] 1)).1 =
         .ok (decide ((Format01.next_record (init01 [10] 1)).2.payload ≠ -1)))) :=
  c6_amended (init01 [10] 1) (by decide)

/-! ## Token-parsing lemmas for the sparse formats -/

/-- Accumulated decimal value of a digit byte list, as computed by the digit
loop of `read_unsigned_int`. -/
def digAcc : Int → List Nat → Int
  | a, [] => a
  | a, d :: ds => digAcc (a * 10 + ((d : Int) - 48)) ds

theorem ruLoop_cons_digit (a next : Int) (c : Nat) (rest : List Nat)
    (h : isdigit next = true) :
    ruLoop a next (c :: rest) = ruLoop (a * 10 + (next - 48)) (c : Int) rest := by
  rw [ruLoop.eq_def, if_pos h]

theorem ruLoop_stop (a next : Int) (l : List Nat) (h : isdigit next = false) :
    ruLoop a next l = (a, next, l) := by
  rw [ruLoop.eq_def, h]
  simp

theorem ruLoop_digits (ds : List Nat) : ∀ (a : Int) (d : Nat), 48 ≤ d → d ≤ 57 →
    (∀ x ∈ ds, 48 ≤ x ∧ x ≤ 57) → ∀ (sep : Nat), isdigit (sep : Int) = false →
    ∀ (rest : List Nat),
    ruLoop a (d : Int) (ds ++ sep :: rest) =
      (digAcc (a * 10 + ((d : Int) - 48)) ds, (sep : Int), rest) := by
  induction ds with
  | nil =>
    intro a d hd1 hd2 _ sep hsep rest
    have hd : isdigit (d : Int) = true := by simp [isdigit]; omega
    rw [List.nil_append, ruLoop_cons_digit _ _ _ _ hd, ruLoop_stop _ _ _ hsep, digAcc]
  | cons d2 ds ih =>
    intro a d hd1 hd2 hds sep hsep rest
    have hd : isdigit (d : Int) = true := by simp [isdigit]; omega
    rw [List.cons_append, ruLoop_cons_digit _ _ _ _ hd,
        ih _ d2 (hds d2 (by simp)).1 (hds d2 (by simp)).2
          (fun x hx => hds x (by simp [hx])) sep hsep rest]
    rfl

/-- `read_unsigned_int` on a well-formed numeric token: a non-empty digit
string followed by a non-digit separator parses to its decimal value with the
separator reported and consumed. -/
theorem read_unsigned_int_token (d : Nat) (ds : List Nat) (sep : Nat) (rest : List Nat)
    (hd1 : 48 ≤ d) (hd2 : d ≤ 57) (hds : ∀ x ∈ ds, 48 ≤ x ∧ x ≤ 57)
    (hsep : isdigit (sep : Int) = false) :
    read_unsigned_int (d :: (ds ++ sep :: rest)) =
      (some (digAcc ((d : Int) - 48) ds), (sep : Int), rest) := by
  have hd : isdigit (d : Int) = true := by simp [isdigit]; omega
  simp only [read_unsigned_int, getc, hd, if_true]
  rw [ruLoop_digits ds 0 d hd1 hd2 hds sep hsep rest]
  norm_num

/-- Full characterisation of `update_next_hit` on a well-formed numeric token:
the parsed value is stored, then rejected with `MalformedInput` exactly when
it is below the cursor or at/above `bits_per_record`. -/
theorem update_next_hit_token (s : FormatHits) (d : Nat) (ds : List Nat)
    (sep : Nat) (rest : List Nat)
    (hin : s.input = d :: (ds ++ sep :: rest))
    (hd1 : 48 ≤ d) (hd2 : d ≤ 57) (hds : ∀ x ∈ ds, 48 ≤ x ∧ x ≤ 57)
    (hsep : sep = 44 ∨ sep = 10) :
    FormatHits.update_next_hit s =
      (let v : Int := digAcc ((d : Int) - 48) ds
       let s' : FormatHits := { s with next_hit := v, separator := (sep : Int), input := rest }
       if v < (s.position : Int) then (.error .MalformedInput, s')
       else if (s.bits_per_record : Int) ≤ v then (.error .MalformedInput, s')
       else (.ok (), s')) := by
  have hnd : isdigit (sep : Int) = false := by
    rcases hsep with h | h <;> subst h <;> decide
  unfold FormatHits.update_next_hit
  rw [hin, read_unsigned_int_token d ds sep rest hd1 hd2 hds hnd]
  dsimp only
  rw [if_neg (by rcases hsep with h | h <;> subst h <;> simp)]

/-- Full characterisation of `update_next_shot` on a well-formed tagged token
`<type><digits><sep>`: the parsed index is rebased by the cursor exactly when
the tag changes, the stored result type becomes the tag, and the (possibly
rebased) index is rejected with `MalformedInput` exactly when it is below the
cursor or at/above `bits_per_record`. -/
theorem update_next_shot_token (s : FormatDets) (c d : Nat) (ds : List Nat)
    (sep : Nat) (rest : List Nat)
    (hin : s.input = c :: d :: (ds ++ sep :: rest))
    (hc : c = 77 ∨ c = 68 ∨ c = 76)
    (hd1 : 48 ≤ d) (hd2 : d ≤ 57) (hds : ∀ x ∈ ds, 48 ≤ x ∧ x ≤ 57)
    (hsep : sep = 32 ∨ sep = 10) :
    FormatDets.update_next_shot s =
      (let v' : Int := if (c : Int) ≠ s.result_type
                       then digAcc ((d : Int) - 48) ds + (s.position : Int)
                       else digAcc ((d : Int) - 48) ds
       let s2 : FormatDets := { s with input := rest, separator := (sep : Int), next_shot := v', result_type := (c : Int) }
       if v' < (s.position : Int) then (.error .MalformedInput, s2)
       else if (s.bits_per_record : Int) ≤ v' then (.error .MalformedInput, s2)
       else (.ok (), s2)) := by
  have hnd : isdigit (sep : Int) = false := by
    rcases hsep with h | h <;> subst h <;> decide
  unfold FormatDets.update_next_shot
  rw [hin]
  simp only [getc]
  have hlt : ¬ ((c : Int) ≥ 128) := by rcases hc with h | h | h <;> subst h <;> decide
  rw [if_neg hlt, if_neg (by rcases hc with h | h | h <;> subst h <;> decide),
      if_neg (by rcases hc with h | h | h <;> subst h <;> decide),
      read_unsigned_int_token d ds sep rest hd1 hd2 hds hnd]
  dsimp only
  rw [if_neg (by rcases hsep with h | h <;> subst h <;> simp)]
  by_cases hty : (c : Int) ≠ s.result_type
  · rw [if_pos hty, if_pos hty]
  · rw [if_neg hty, if_neg hty]
    push_neg at hty
    rw [hty]

/-! ## Claim C4 -/

/-- C4: for the Dets format, on a well-formed token the newly read index is
rebased by adding the current cursor position (`next_shot += position`)
exactly when the token's type tag differs from the current `result_type`,
*before* the ascending and range checks; when the tag is unchanged the index
is taken as is. -/
theorem c4_dets_rebase (s : FormatDets) (c d : Nat) (ds : List Nat)
    (sep : Nat) (rest : List Nat)
    (hin : s.input = c :: d :: (ds ++ sep :: rest))
    (hc : c = 77 ∨ c = 68 ∨ c = 76)
    (hd1 : 48 ≤ d) (hd2 : d ≤ 57) (hds : ∀ x ∈ ds, 48 ≤ x ∧ x ≤ 57)
    (hsep : sep = 32 ∨ sep = 10) :
    FormatDets.update_next_shot s =
      (let v' : Int := if (c : Int) ≠ s.result_type
                       then digAcc ((d : Int) - 48) ds + (s.position : Int)
                       else digAcc ((d : Int) - 48) ds
       let s2 : FormatDets := { s with input := rest, separator := (sep : Int), next_shot := v', result_type := (c : Int) }
       if v' < (s.position : Int) then (.error .MalformedInput, s2)
       else if (s.bits_per_record : Int) ≤ v' then (.error .MalformedInput, s2)
       else (.ok (), s2)) :=
  update_next_shot_token s c d ds sep rest hin hc hd1 hd2 hds hsep

/-- Witness for C4 at concrete inputs: a tag-changing token `D1 ` at cursor 2
is stored rebased as index 3, while a same-tag token `M5\n` at cursor 2 is
stored as 5 unchanged. -/
theorem c4_dets_rebase_witness :
    FormatDets.update_next_shot { input := [68, 49, 32], bits_per_record := 8, position := 2, result_type := 77, separator := 32, next_shot := 0 } =
      (.ok (), { input := [], bits_per_record := 8, position := 2, result_type := 68, separator := 32, next_shot := 3 }) ∧
    FormatDets.update_next_shot { input := [77, 53, 10], bits_per_record := 8, position := 2, result_type := 77, separator := 32, next_shot := 0 } =
      (.ok (), { input := [], bits_per_record := 8, position := 2, result_type := 77, separator := 10, next_shot := 5 }) :=
  ⟨(c4_dets_rebase _ 68 49 [] 32 [] rfl (Or.inr (Or.inl rfl)) (by decide) (by decide)
      (by simp) (Or.inl rfl)).trans rfl,
   (c4_dets_rebase _ 77 53 [] 10 [] rfl (Or.inl rfl) (by decide) (by decide)
      (by simp) (Or.inr rfl)).trans rfl⟩

/-! ## Claim C7 -/

/-- C7: for the sparse formats (Hits and Dets), a parsed index below the
current cursor position or at/above `bits_per_record` raises `MalformedInput`
(for Dets after the tag-change rebasing), and on the Hits input `"3,1\n"`
with `bits_per_record = 8` the violation surfaces as a `MalformedInput` error
while reading. -/
theorem c7_sparse_index_validation :
    (∀ (s : FormatHits) (d : Nat) (ds : List Nat) (sep : Nat) (rest : List Nat),
      s.input = d :: (ds ++ sep :: rest) → 48 ≤ d → d ≤ 57 →
      (∀ x ∈ ds, 48 ≤ x ∧ x ≤ 57) → (sep = 44 ∨ sep = 10) →
      (digAcc ((d : Int) - 48) ds < (s.position : Int) ∨
        (s.bits_per_record : Int) ≤ digAcc ((d : Int) - 48) ds) →
      (FormatHits.update_next_hit s).1 = .error .MalformedInput) ∧
    (∀ (s : FormatDets) (c d : Nat) (ds : List Nat) (sep : Nat) (rest : List Nat),
      s.input = c :: d :: (ds ++ sep :: rest) → (c = 77 ∨ c = 68 ∨ c = 76) →
      48 ≤ d → d ≤ 57 → (∀ x ∈ ds, 48 ≤ x ∧ x ≤ 57) → (sep = 32 ∨ sep = 10) →
      ((if (c : Int) ≠ s.result_type then digAcc ((d : Int) - 48) ds + (s.position : Int) else digAcc ((d : Int) - 48) ds) < (s.position : Int) ∨
        (s.bits_per_record : Int) ≤ (if (c : Int) ≠ s.result_type then digAcc ((d : Int) - 48) ds + (s.position : Int) else digAcc ((d : Int) - 48) ds)) →
      (FormatDets.update_next_shot s).1 = .error .MalformedInput) ∧
    (readBitsG FormatHits.read_bit (initHits [51, 44, 49, 10] 8).2 5).1 =
      .error .MalformedInput := by
  refine ⟨?_, ?_, rfl⟩
  · intro s d ds sep rest hin hd1 hd2 hds hsep hviol
    rw [update_next_hit_token s d ds sep rest hin hd1 hd2 hds hsep]
    dsimp only
    split_ifs with h1 h2
    · rfl
    · rfl
    · exfalso
      rcases hviol with h | h <;> omega
  · intro s c d ds sep rest hin hc hd1 hd2 hds hsep hviol
    rw [update_next_shot_token s c d ds sep rest hin hc hd1 hd2 hds hsep]
    dsimp only
    by_cases hty : (c : Int) ≠ s.result_type
    · rw [if_pos hty] at hviol ⊢
      split_ifs with h1 h2
      · rfl
      · rfl
      · exfalso
        rcases hviol with h | h <;> omega
    · rw [if_neg hty] at hviol ⊢
      split_ifs with h1 h2
      · rfl
      · rfl
      · exfalso
        rcases hviol with h | h <;> omega

/-- Witness for C7 at concrete inputs: Hits index 1 when the cursor is at 5,
and Dets index `M9` with `bits_per_record = 4`. -/
theorem c7_sparse_index_validation_witness :
    (FormatHits.update_next_hit { input := [49, 10], bits_per_record := 8, position := 5, separator := 44, next_hit := 3 }).1 = .error .MalformedInput ∧
    (FormatDets.update_next_shot { input := [77, 57, 10], bits_per_record := 4, position := 0, result_type := 77, separator := 32, next_shot := -1 }).1 = .error .MalformedInput :=
  ⟨c7_sparse_index_validation.1 _ 49 [] 10 [] rfl (by decide) (by decide) (by simp)
      (Or.inr rfl) (Or.inl (by decide)),
   c7_sparse_index_validation.2.1 _ 77 57 [] 10 [] rfl (Or.inl rfl) (by decide) (by decide)
      (by simp) (Or.inr rfl) (Or.inr (by decide))⟩

/-! ## Claim C9 (amended statement) -/

/-- Every error escaping `update_next_hit` is a `runtime_error`
(`MalformedInput`). -/
theorem update_next_hit_error (s : FormatHits) (e : Err)
    (h : (FormatHits.update_next_hit s).1 = .error e) : e = .MalformedInput := by
  unfold FormatHits.update_next_hit at h
  rcases hres : read_unsigned_int s.input with ⟨ov, next, rest⟩
  rw [hres] at h
  cases ov <;> dsimp only at h <;> split_ifs at h <;> simp_all

/-- Every error escaping `update_next_shot` is a `runtime_error`
(`MalformedInput`). -/
theorem update_next_shot_error (s : FormatDets) (e : Err)
    (h : (FormatDets.update_next_shot s).1 = .error e) : e = .MalformedInput := by
  unfold FormatDets.update_next_shot at h
  dsimp only at h
  rcases hres : read_unsigned_int (getc s.input).2 with ⟨ov, next, rest⟩
  rw [hres] at h
  cases ov <;> dsimp only at h <;> split_ifs at h <;> simp_all

/-- Every error escaping the keyword-matching loop is a `runtime_error`
(`MalformedInput`). -/
theorem consume_kw_loop_error : ∀ (kw : List Nat) (next : Int) (l : List Nat) (e : Err),
    (consume_kw_loop kw next l).1 = .error e → e = .MalformedInput := by
  intro kw
  induction kw with
  | nil => intro next l e h; simp [consume_kw_loop] at h
  | cons k ks ih =>
    intro next l e h
    unfold consume_kw_loop at h
    by_cases hk : next = (k : Int)
    · rw [if_pos hk] at h
      exact ih _ _ _ h
    · rw [if_neg hk] at h
      by_cases hlast : ks = []
      · rw [if_pos hlast] at h
        exact absurd h (by simp)
      · rw [if_neg hlast] at h
        simp at h
        exact h.symm

/-- Sanity check of the `i++`-in-condition behaviour: the DETS constructor
accepts the stream `"shoXM0\n"` — the mismatch at the final `t` of `shot` is
not reported, `separator` is left holding `X`, and the first token `M0`
parses. -/
theorem initDets_accepts_short_keyword :
    (initDets [115, 104, 111, 88, 77, 48, 10] 1).1 = .ok () ∧
    (initDets [115, 104, 111, 88, 77, 48, 10] 1).2.separator = 10 ∧
    (initDets [115, 104, 111, 88, 77, 48, 10] 1).2.next_shot = 0 := ⟨rfl, rfl, rfl⟩

/-- Every error escaping the DETS constructor is a `runtime_error`
(`MalformedInput`). -/
theorem initDets_error (input : List Nat) (nm : Nat) (e : Err)
    (h : (initDets input nm).1 = .error e) : e = .MalformedInput := by
  unfold initDets maybe_consume_keyword at h
  dsimp only at h
  split_ifs at h with h1
  · simp at h
    exact h.symm
  · rcases hkw : consume_kw_loop shot_keyword (getc input).1 (getc input).2 with ⟨r, next, rest⟩
    rw [hkw] at h
    cases r with
    | error e' =>
      dsimp only at h
      have := consume_kw_loop_error shot_keyword (getc input).1 (getc input).2 e'
      rw [hkw] at this
      simp at h
      rw [← h]
      exact this rfl
    | ok u =>
      cases u
      dsimp only at h
      exact update_next_shot_error _ _ h

/-- C9 (amended): construction fails with `ConfigurationError` whenever a
non-zero detection-event or observable count is passed for a format other
than DETS, and whenever `bits_per_record` exceeds `SSIZE_MAX`; with valid
parameters, 01/B8/R8 construction succeeds and dispatches to the matching
variant, while HITS and DETS either dispatch to the matching variant or fail
with `MalformedInput` because their constructors already parse the stream's
first token. -/
theorem c9_amended :
    (∀ (input : List Nat) (fmt : SampleFormat) (nm nde nlo : Nat),
      fmt ≠ .SAMPLE_FORMAT_DETS → (nde ≠ 0 ∨ nlo ≠ 0) →
      make input fmt nm nde nlo = .error .ConfigurationError) ∧
    (∀ (input : List Nat) (fmt : SampleFormat) (nm nde nlo : Nat),
      (fmt = .SAMPLE_FORMAT_DETS ∨ (nde = 0 ∧ nlo = 0)) → nm > SSIZE_MAX →
      make input fmt nm nde nlo = .error .ConfigurationError) ∧
    (∀ (input : List Nat) (nm : Nat), nm ≤ SSIZE_MAX →
      make input .SAMPLE_FORMAT_01 nm 0 0 = .ok (.fmt01 (init01 input nm)) ∧
      make input .SAMPLE_FORMAT_B8 nm 0 0 = .ok (.fmtB8 (initB8 input nm)) ∧
      make input .SAMPLE_FORMAT_R8 nm 0 0 = .ok (.fmtR8 (initR8 input nm))) ∧
    (∀ (input : List Nat) (nm : Nat), nm ≤ SSIZE_MAX →
      ((∃ s, make input .SAMPLE_FORMAT_HITS nm 0 0 = .ok (.fmtHits s)) ∨
        make input .SAMPLE_FORMAT_HITS nm 0 0 = .error .MalformedInput)) ∧
    (∀ (input : List Nat) (nm nde nlo : Nat), nm ≤ SSIZE_MAX →
      ((∃ s, make input .SAMPLE_FORMAT_DETS nm nde nlo = .ok (.fmtDets s)) ∨
        make input .SAMPLE_FORMAT_DETS nm nde nlo = .error .MalformedInput)) := by
  refine ⟨?_, ?_, ?_, ?_, ?_⟩
  · intro input fmt nm nde nlo hf h
    unfold make
    by_cases hde : nde ≠ 0
    · rw [if_pos ⟨hf, hde⟩]
    · rw [if_neg (by tauto), if_pos ⟨hf, by tauto⟩]
  · intro input fmt nm nde nlo h hsz
    rcases h with h | ⟨h1, h2⟩
    · subst h
      simp [make, hsz]
    · subst h1; subst h2
      cases fmt <;> simp [make, hsz]
  · intro input nm h
    refine ⟨?_, ?_, ?_⟩ <;> simp [make, show ¬ nm > SSIZE_MAX by omega]
  · intro input nm h
    have hmk : make input .SAMPLE_FORMAT_HITS nm 0 0 =
        (match initHits input nm with
         | (.error e, _) => .error e
         | (.ok (), s) => .ok (.fmtHits s)) := by
      simp [make, show ¬ nm > SSIZE_MAX by omega]
    rcases hinit : initHits input nm with ⟨r, s⟩
    cases r with
    | error e =>
      right
      rw [hmk, hinit]
      have he := update_next_hit_error { input := input, bits_per_record := nm, position := 0, separator := 0, next_hit := -1 } e
      unfold initHits at hinit
      rw [hinit] at he
      rw [he rfl]
    | ok u =>
      cases u
      left
      refine ⟨s, ?_⟩
      rw [hmk, hinit]
  · intro input nm nde nlo h
    have hmk : make input .SAMPLE_FORMAT_DETS nm nde nlo =
        (match initDets input nm with
         | (.error e, _) => .error e
         | (.ok (), s) => .ok (.fmtDets s)) := by
      simp [make, show ¬ nm > SSIZE_MAX by omega]
    rcases hinit : initDets input nm with ⟨r, s⟩
    cases r with
    | error e =>
      right
      rw [hmk, hinit]
      have : e = .MalformedInput := by
        have := initDets_error input nm e
        rw [hinit] at this
        exact this rfl
      rw [this]
    | ok u =>
      cases u
      left
      refine ⟨s, ?_⟩
      rw [hmk, hinit]

/-- Witness for C9 (amended) at concrete inputs. -/
theorem c9_amended_witness :
    make [] .SAMPLE_FORMAT_01 1 1 0 = .error .ConfigurationError ∧
    make [] .SAMPLE_FORMAT_B8 (SSIZE_MAX + 1) 0 0 = .error .ConfigurationError ∧
    make [] .SAMPLE_FORMAT_01 1 0 0 = .ok (.fmt01 (init01 [] 1)) ∧
    ((∃ s, make [] .SAMPLE_FORMAT_HITS 1 0 0 = .ok (.fmtHits s)) ∨
      make [] .SAMPLE_FORMAT_HITS 1 0 0 = .error .MalformedInput) ∧
    ((∃ s, make [] .SAMPLE_FORMAT_DETS 1 0 0 = .ok (.fmtDets s)) ∨
      make [] .SAMPLE_FORMAT_DETS 1 0 0 = .error .MalformedInput) :=
  ⟨c9_amended.1 [] .SAMPLE_FORMAT_01 1 1 0 (by decide) (Or.inl one_ne_zero),
   c9_amended.2.1 [] .SAMPLE_FORMAT_B8 (SSIZE_MAX + 1) 0 0 (Or.inr ⟨rfl, rfl⟩) (by omega),
   (c9_amended.2.2.1 [] 1 (by norm_num [SSIZE_MAX])).1,
   c9_amended.2.2.2.1 [] 1 (by norm_num [SSIZE_MAX]),
   c9_amended.2.2.2.2 [] 1 0 0 (by norm_num [SSIZE_MAX])⟩

/-! ## Claim C1 (amended statement) -/

/-- `maybe_update_payload` never touches the cursor or the record length. -/
theorem maybe_update_payload_pos (s : FormatB8) :
    (FormatB8.maybe_update_payload s).position = s.position ∧
    (FormatB8.maybe_update_payload s).bits_per_record = s.bits_per_record := by
  unfold FormatB8.maybe_update_payload
  dsimp only
  split_ifs <;> simp

/-- `update_run_length` never touches the cursor or the record length. -/
theorem update_run_length_pos (s s' : FormatR8)
    (h : FormatR8.update_run_length s = some s') :
    s'.position = s.position ∧ s'.bits_per_record = s.bits_per_record := by
  unfold FormatR8.update_run_length at h
  cases hin : s.input with
  | nil => rw [hin] at h; simp at h
  | cons r rest =>
    rw [hin] at h
    dsimp only at h
    cases h
    exact ⟨rfl, rfl⟩

/-- `update_next_hit` never touches the cursor or the record length. -/
theorem update_next_hit_pos (s : FormatHits) :
    ((FormatHits.update_next_hit s).2).position = s.position ∧
    ((FormatHits.update_next_hit s).2).bits_per_record = s.bits_per_record := by
  unfold FormatHits.update_next_hit
  rcases hres : read_unsigned_int s.input with ⟨ov, next, rest⟩
  cases ov <;> dsimp only <;> split_ifs <;> simp

/-- `update_next_shot` never touches the cursor or the record length. -/
theorem update_next_shot_pos (s : FormatDets) :
    ((FormatDets.update_next_shot s).2).position = s.position ∧
    ((FormatDets.update_next_shot s).2).bits_per_record = s.bits_per_record := by
  unfold FormatDets.update_next_shot
  dsimp only
  rcases hres : read_unsigned_int (getc s.input).2 with ⟨ov, next, rest⟩
  cases ov <;> dsimp only <;> split_ifs <;> simp

/-- A successful Format01 `read_bit` advances the cursor by one. -/
theorem read_bit01_step (s : Format01) (b : Bool) (s' : Format01)
    (h : Format01.read_bit s = (.ok b, s')) :
    s'.position = s.position + 1 ∧ s'.bits_per_record = s.bits_per_record := by
  unfold Format01.read_bit at h
  dsimp only at h
  split_ifs at h
  · exact Except.noConfusion (congrArg Prod.fst h)
  · exact Except.noConfusion (congrArg Prod.fst h)
  · exact Except.noConfusion (congrArg Prod.fst h)
  · have hs := congrArg Prod.snd h
    dsimp only at hs
    rw [← hs]
    exact ⟨rfl, rfl⟩

/-- A successful FormatB8 `read_bit` advances the cursor by one. -/
theorem read_bitB8_step (s : FormatB8) (b : Bool) (s' : FormatB8)
    (h : FormatB8.read_bit s = (.ok b, s')) :
    s'.position = s.position + 1 ∧ s'.bits_per_record = s.bits_per_record := by
  have hmup := maybe_update_payload_pos s
  unfold FormatB8.read_bit at h
  dsimp only at h
  split_ifs at h
  · exact Except.noConfusion (congrArg Prod.fst h)
  · exact Except.noConfusion (congrArg Prod.fst h)
  · have hs := congrArg Prod.snd h
    dsimp only at hs
    rw [← hs]
    constructor
    · show (FormatB8.maybe_update_payload s).position + 1 = s.position + 1
      rw [hmup.1]
    · show (FormatB8.maybe_update_payload s).bits_per_record = s.bits_per_record
      exact hmup.2

/-- A successful FormatR8 `read_bit` advances the cursor by one. -/
theorem read_bitR8_step (s : FormatR8) (b : Bool) (s' : FormatR8)
    (h : FormatR8.read_bit s = (.ok b, s')) :
    s'.position = s.position + 1 ∧ s'.bits_per_record = s.bits_per_record := by
  unfold FormatR8.read_bit at h
  split_ifs at h
  · exact Except.noConfusion (congrArg Prod.fst h)
  · have hs := congrArg Prod.snd h
    dsimp only at hs
    rw [← hs]
    exact ⟨rfl, rfl⟩
  · have hs := congrArg Prod.snd h
    dsimp only at hs
    rw [← hs]
    exact ⟨rfl, rfl⟩
  · rcases hurl : FormatR8.update_run_length s with - | t
    · rw [hurl] at h
      exact Except.noConfusion (congrArg Prod.fst h)
    · rw [hurl] at h
      have hs := congrArg Prod.snd h
      dsimp only at hs
      rw [← hs]
      have hp := update_run_length_pos s t hurl
      constructor
      · show t.position + 1 = s.position + 1
        rw [hp.1]
      · exact hp.2

/-- A successful FormatHits `read_bit` advances the cursor by one. -/
theorem read_bitHits_step (s : FormatHits) (b : Bool) (s' : FormatHits)
    (h : FormatHits.read_bit s = (.ok b, s')) :
    s'.position = s.position + 1 ∧ s'.bits_per_record = s.bits_per_record := by
  have hupd := update_next_hit_pos s
  unfold FormatHits.read_bit at h
  split_ifs at h
  · exact Except.noConfusion (congrArg Prod.fst h)
  · rcases hu : FormatHits.update_next_hit s with ⟨r, t⟩
    rw [hu] at h hupd
    dsimp only at hupd
    cases r with
    | error e => exact Except.noConfusion (congrArg Prod.fst h)
    | ok u =>
      cases u
      have hs := congrArg Prod.snd h
      dsimp only at hs
      rw [← hs]
      constructor
      · show t.position + 1 = s.position + 1
        rw [hupd.1]
      · exact hupd.2
  · have hs := congrArg Prod.snd h
    dsimp only at hs
    rw [← hs]
    exact ⟨rfl, rfl⟩

/-- A successful FormatDets `read_bit` advances the cursor by one. -/
theorem read_bitDets_step (s : FormatDets) (b : Bool) (s' : FormatDets)
    (h : FormatDets.read_bit s = (.ok b, s')) :
    s'.position = s.position + 1 ∧ s'.bits_per_record = s.bits_per_record := by
  have hupd := update_next_shot_pos s
  unfold FormatDets.read_bit at h
  split_ifs at h
  · exact Except.noConfusion (congrArg Prod.fst h)
  · rcases hu : FormatDets.update_next_shot s with ⟨r, t⟩
    rw [hu] at h hupd
    dsimp only at hupd
    cases r with
    | error e => exact Except.noConfusion (congrArg Prod.fst h)
    | ok u =>
      cases u
      have hs := congrArg Prod.snd h
      dsimp only at hs
      rw [← hs]
      constructor
      · show t.position + 1 = s.position + 1
        rw [hupd.1]
      · exact hupd.2
  · have hs := congrArg Prod.snd h
    dsimp only at hs
    rw [← hs]
    exact ⟨rfl, rfl⟩

/-- Reading `n` bits successfully advances the cursor by `n` and preserves
the record length. -/
theorem readBitsG_pos {σ : Type} (rb : σ → (Except Err Bool) × σ) (pos bpr : σ → Nat)
    (hstep : ∀ s b s', rb s = (.ok b, s') → pos s' = pos s + 1 ∧ bpr s' = bpr s) :
    ∀ (n : Nat) (s : σ) (bs : List Bool),
      (readBitsG rb s n).1 = .ok bs →
      pos (readBitsG rb s n).2 = pos s + n ∧ bpr (readBitsG rb s n).2 = bpr s := by
  intro n
  induction n with
  | zero =>
    intro s bs _
    simp [readBitsG]
  | succ n ih =>
    intro s bs h
    unfold readBitsG at h ⊢
    rcases hrb : rb s with ⟨r, s1⟩
    rw [hrb] at h
    cases r with
    | error e => simp at h
    | ok b =>
      dsimp only at h ⊢
      rcases hr2 : readBitsG rb s1 n with ⟨r2, s2⟩
      rw [hr2] at h
      cases r2 with
      | error e => simp at h
      | ok bs2 =>
        dsimp only
        have h1 := hstep s b s1 hrb
        have h2 := ih s1 bs2 (by rw [hr2])
        rw [hr2] at h2
        dsimp only at h2
        constructor
        · rw [h2.1, h1.1]
          omega
        · rw [h2.2, h1.2]

/-- C1 (amended): for every format variant, after `bits_per_record`
successful `read_bit` calls from a position-0 record, `is_end_of_record()`
returns true, and one further `read_bit()` fails — with `EndOfRecord` for
B8, R8, Hits and Dets unconditionally, and for 01 with `EndOfRecord` when
the stream still has a pending character but `EndOfStream` when the record
end coincides with stream exhaustion. -/
theorem c1_amended :
    (∀ (s : Format01) (bs : List Bool), s.position = 0 →
      (readBitsG Format01.read_bit s s.bits_per_record).1 = .ok bs →
      Format01.is_end_of_record (readBitsG Format01.read_bit s s.bits_per_record).2 = true ∧
      ((readBitsG Format01.read_bit s s.bits_per_record).2.payload = -1 →
        (Format01.read_bit (readBitsG Format01.read_bit s s.bits_per_record).2).1 =
          .error .EndOfStream) ∧
      (¬(readBitsG Format01.read_bit s s.bits_per_record).2.payload = -1 →
        (Format01.read_bit (readBitsG Format01.read_bit s s.bits_per_record).2).1 =
          .error .EndOfRecord)) ∧
    (∀ (s : FormatB8) (bs : List Bool), s.position = 0 →
      (readBitsG FormatB8.read_bit s s.bits_per_record).1 = .ok bs →
      (FormatB8.is_end_of_record (readBitsG FormatB8.read_bit s s.bits_per_record).2).1 = true ∧
      (FormatB8.read_bit (readBitsG FormatB8.read_bit s s.bits_per_record).2).1 =
        .error .EndOfRecord) ∧
    (∀ (s : FormatR8) (bs : List Bool), s.position = 0 →
      (readBitsG FormatR8.read_bit s s.bits_per_record).1 = .ok bs →
      (FormatR8.is_end_of_record (readBitsG FormatR8.read_bit s s.bits_per_record).2).1 = true ∧
      (FormatR8.read_bit (readBitsG FormatR8.read_bit s s.bits_per_record).2).1 =
        .error .EndOfRecord) ∧
    (∀ (s : FormatHits) (bs : List Bool), s.position = 0 →
      (readBitsG FormatHits.read_bit s s.bits_per_record).1 = .ok bs →
      FormatHits.is_end_of_record (readBitsG FormatHits.read_bit s s.bits_per_record).2 = true ∧
      (FormatHits.read_bit (readBitsG FormatHits.read_bit s s.bits_per_record).2).1 =
        .error .EndOfRecord) ∧
    (∀ (s : FormatDets) (bs : List Bool), s.position = 0 →
      (readBitsG FormatDets.read_bit s s.bits_per_record).1 = .ok bs →
      FormatDets.is_end_of_record (readBitsG FormatDets.read_bit s s.bits_per_record).2 = true ∧
      (FormatDets.read_bit (readBitsG FormatDets.read_bit s s.bits_per_record).2).1 =
        .error .EndOfRecord) := by
  refine ⟨?_, ?_, ?_, ?_, ?_⟩
  · intro s bs h0 hok
    have hp := readBitsG_pos Format01.read_bit (fun t => t.position)
      (fun t => t.bits_per_record) read_bit01_step s.bits_per_record s bs hok
    dsimp only at hp
    rw [h0] at hp
    have hpos : (readBitsG Format01.read_bit s s.bits_per_record).2.position ≥
        (readBitsG Format01.read_bit s s.bits_per_record).2.bits_per_record := by omega
    refine ⟨by simp [Format01.is_end_of_record, hpos], ?_, ?_⟩
    · intro hpay
      rw [Format01.read_bit, if_pos hpay]
    · intro hpay
      rw [Format01.read_bit, if_neg hpay, if_pos (Or.inr hpos)]
  · intro s bs h0 hok
    have hp := readBitsG_pos FormatB8.read_bit (fun t => t.position)
      (fun t => t.bits_per_record) read_bitB8_step s.bits_per_record s bs hok
    dsimp only at hp
    rw [h0] at hp
    have hpos : (readBitsG FormatB8.read_bit s s.bits_per_record).2.position ≥
        (readBitsG FormatB8.read_bit s s.bits_per_record).2.bits_per_record := by omega
    constructor
    · rw [FormatB8.is_end_of_record]
      have hm := maybe_update_payload_pos (readBitsG FormatB8.read_bit s s.bits_per_record).2
      simp only [ge_iff_le, decide_eq_true_eq]
      right
      omega
    · rw [FormatB8.read_bit, if_pos hpos]
  · intro s bs h0 hok
    have hp := readBitsG_pos FormatR8.read_bit (fun t => t.position)
      (fun t => t.bits_per_record) read_bitR8_step s.bits_per_record s bs hok
    dsimp only at hp
    rw [h0] at hp
    have hpos : (readBitsG FormatR8.read_bit s s.bits_per_record).2.position ≥
        (readBitsG FormatR8.read_bit s s.bits_per_record).2.bits_per_record := by omega
    constructor
    · rw [FormatR8.is_end_of_record, if_pos hpos]
    · rw [FormatR8.read_bit, if_pos hpos]
  · intro s bs h0 hok
    have hp := readBitsG_pos FormatHits.read_bit (fun t => t.position)
      (fun t => t.bits_per_record) read_bitHits_step s.bits_per_record s bs hok
    dsimp only at hp
    rw [h0] at hp
    have hpos : (readBitsG FormatHits.read_bit s s.bits_per_record).2.position ≥
        (readBitsG FormatHits.read_bit s s.bits_per_record).2.bits_per_record := by omega
    constructor
    · simp [FormatHits.is_end_of_record, hpos]
    · rw [FormatHits.read_bit, if_pos hpos]
  · intro s bs h0 hok
    have hp := readBitsG_pos FormatDets.read_bit (fun t => t.position)
      (fun t => t.bits_per_record) read_bitDets_step s.bits_per_record s bs hok
    dsimp only at hp
    rw [h0] at hp
    have hpos : (readBitsG FormatDets.read_bit s s.bits_per_record).2.position ≥
        (readBitsG FormatDets.read_bit s s.bits_per_record).2.bits_per_record := by omega
    constructor
    · simp [FormatDets.is_end_of_record, hpos]
    · rw [FormatDets.read_bit, if_pos hpos]

/-- Witness for C1 (amended) at concrete inputs across all five formats. -/
theorem c1_amended_witness :
    (Format01.is_end_of_record (readBitsG Format01.read_bit (init01 [48, 10] 1) 1).2 = true ∧
      (¬(readBitsG Format01.read_bit (init01 [48, 10] 1) 1).2.payload = -1 →
        (Format01.read_bit (readBitsG Format01.read_bit (init01 [48, 10] 1) 1).2).1 =
          .error .EndOfRecord)) ∧
    ((FormatB8.is_end_of_record (readBitsG FormatB8.read_bit (initB8 [1] 1) 1).2).1 = true ∧
      (FormatB8.read_bit (readBitsG FormatB8.read_bit (initB8 [1] 1) 1).2).1 =
        .error .EndOfRecord) ∧
    ((FormatR8.is_end_of_record (readBitsG FormatR8.read_bit (initR8 [0, 0] 1) 1).2).1 = true ∧
      (FormatR8.read_bit (readBitsG FormatR8.read_bit (initR8 [0, 0] 1) 1).2).1 =
        .error .EndOfRecord) ∧
    (FormatHits.is_end_of_record (readBitsG FormatHits.read_bit (initHits [10] 1).2 1).2 = true ∧
      (FormatHits.read_bit (readBitsG FormatHits.read_bit (initHits [10] 1).2 1).2).1 =
        .error .EndOfRecord) ∧
    (FormatDets.is_end_of_record (readBitsG FormatDets.read_bit (initDets [115, 104, 111, 116, 10] 1).2 1).2 = true ∧
      (FormatDets.read_bit (readBitsG FormatDets.read_bit (initDets [115, 104, 111, 116, 10] 1).2 1).2).1 =
        .error .EndOfRecord) :=
  ⟨⟨(c1_amended.1 (init01 [48, 10] 1) [false] rfl rfl).1,
    (c1_amended.1 (init01 [48, 10] 1) [false] rfl rfl).2.2⟩,
   c1_amended.2.1 (initB8 [1] 1) [true] rfl rfl,
   c1_amended.2.2.1 (initR8 [0, 0] 1) [true] rfl rfl,
   c1_amended.2.2.2.1 (initHits [10] 1).2 [false] rfl rfl,
   c1_amended.2.2.2.2 (initDets [115, 104, 111, 116, 10] 1).2 [false] rfl rfl⟩

/-! ## Reference semantics of the R8 encoding (claim C2)

Spec-side decoding: a maximal run of `0xFF` continuation bytes followed by a
terminal byte `r` (or by end-of-stream) forms one zero-run descriptor of
value `255·(number of 0xFF bytes) + r`.  The bits the reader can actually
produce are the descriptors' zero-runs joined by single 1-bits — the final
descriptor's terminating 1-bit is never produced (emitting a descriptor's 1
requires fetching the next descriptor first). -/

theorem readRun_len_le (l : List Nat) : ∀ acc : Nat,
    ((FormatR8.readRun l acc).2).length ≤ l.length := by
  induction l with
  | nil => intro acc; simp [FormatR8.readRun]
  | cons r rest ih =>
    intro acc
    rw [FormatR8.readRun]
    split_ifs
    · exact le_trans (ih _) (by simp)
    · simp

theorem readRun_len_lt (l : List Nat) (acc : Nat) (h : l ≠ []) :
    ((FormatR8.readRun l acc).2).length < l.length := by
  match l with
  | [] => exact absurd rfl h
  | r :: rest =>
    rw [FormatR8.readRun]
    split_ifs
    · exact lt_of_le_of_lt (readRun_len_le rest _) (by simp)
    · simp

/-- The zero-run descriptors encoded by an R8 byte stream. -/
def r8SpecRuns : List Nat → List Nat
  | [] => []
  | r :: rest =>
    (FormatR8.readRun (r :: rest) 0).1 :: r8SpecRuns (FormatR8.readRun (r :: rest) 0).2
termination_by l => l.length
decreasing_by
  exact readRun_len_lt _ 0 (by simp)

/-- Bits still owed by descriptors that have not yet been fetched: each
pending descriptor contributes its (delayed) leading 1-bit and its zeros. -/
def r8Tail : List Nat → List Bool
  | [] => []
  | d :: ds => true :: (List.replicate d false ++ r8Tail ds)

/-- The readable bit sequence of a whole descriptor list: the zero-runs
joined by single 1-bits, with no 1 after the final descriptor. -/
def r8RunsBits : List Nat → List Bool
  | [] => []
  | [d] => List.replicate d false
  | d :: ds => List.replicate d false ++ true :: r8RunsBits ds

/-- Bits still owed by the run counters of the current descriptor. -/
def r8Pending (s : FormatR8) : List Bool :=
  List.replicate (s.run_length_1s - s.generated_1s) true ++
  List.replicate (s.run_length_0s - s.generated_0s) false

/-- All bits the reader state can still produce (ignoring the record
length): pending run bits, then the bits of the unread descriptors. -/
def r8Remaining (s : FormatR8) : List Bool :=
  r8Pending s ++ r8Tail (r8SpecRuns s.input)

theorem r8SpecRuns_nil : r8SpecRuns [] = [] := by
  simp [r8SpecRuns]

theorem r8SpecRuns_cons (r : Nat) (rest : List Nat) :
    r8SpecRuns (r :: rest) =
      (FormatR8.readRun (r :: rest) 0).1 :: r8SpecRuns (FormatR8.readRun (r :: rest) 0).2 := by
  simp [r8SpecRuns]

theorem r8Tail_cons (d : Nat) (ds : List Nat) :
    r8Tail (d :: ds) = true :: (List.replicate d false ++ r8Tail ds) := rfl

theorem r8RunsBits_eq : ∀ (ds : List Nat) (d : Nat),
    r8RunsBits (d :: ds) = List.replicate d false ++ r8Tail ds := by
  intro ds
  induction ds with
  | nil => intro d; simp [r8RunsBits, r8Tail]
  | cons d2 ds2 ih =>
    intro d
    show List.replicate d false ++ true :: r8RunsBits (d2 :: ds2) = _
    rw [ih d2]
    simp [r8Tail]

theorem r8SpecRuns_nil_iff (l : List Nat) : r8SpecRuns l = [] ↔ l = [] := by
  cases l with
  | nil => simp [r8SpecRuns_nil]
  | cons r rest => rw [r8SpecRuns_cons]; simp

theorem r8Tail_nil_iff (ds : List Nat) : r8Tail ds = [] ↔ ds = [] := by
  cases ds <;> simp [r8Tail]

/-- When no bit remains but the record is not full, `read_bit` needs a new
descriptor and fails with `EndOfStream`, leaving the state unchanged. -/
theorem r8_step_empty (s : FormatR8) (hpos : s.position < s.bits_per_record)
    (hR : r8Remaining s = []) : FormatR8.read_bit s = (.error .EndOfStream, s) := by
  have hsplit := List.append_eq_nil.mp hR
  have hpend := hsplit.1
  have htail := hsplit.2
  unfold r8Pending at hpend
  have hones := (List.append_eq_nil.mp hpend).1
  have hzeros := (List.append_eq_nil.mp hpend).2
  rw [List.replicate_eq_nil_iff] at hones hzeros
  have hinput : s.input = [] :=
    (r8SpecRuns_nil_iff s.input).mp ((r8Tail_nil_iff (r8SpecRuns s.input)).mp htail)
  unfold FormatR8.read_bit
  rw [if_neg (by omega), if_neg (by omega), if_neg (by omega)]
  unfold FormatR8.update_run_length
  rw [hinput]

/-- Reading one available bit: `read_bit` produces the head of the remaining
bit sequence, and the new state owes exactly the tail. -/
theorem r8_step_cons (s : FormatR8) (hpos : s.position < s.bits_per_record)
    (hrl : s.run_length_1s ≤ 1) (b : Bool) (rest : List Bool)
    (hR : r8Remaining s = b :: rest) :
    ∃ s', FormatR8.read_bit s = (.ok b, s') ∧ r8Remaining s' = rest ∧
      s'.position = s.position + 1 ∧ s'.bits_per_record = s.bits_per_record ∧
      s'.run_length_1s ≤ 1 ∧ s'.run_length_1s ≤ s'.generated_1s := by
  by_cases h1 : s.generated_1s < s.run_length_1s
  · have hg1 : s.generated_1s = 0 := by omega
    have hr1 : s.run_length_1s = 1 := by omega
    have hRs : r8Remaining s = true ::
        (List.replicate (s.run_length_0s - s.generated_0s) false ++
          r8Tail (r8SpecRuns s.input)) := by
      unfold r8Remaining r8Pending
      rw [hg1, hr1]
      simp
    rw [hRs] at hR
    obtain ⟨hb, hrest⟩ := List.cons_eq_cons.mp hR
    subst hb
    subst hrest
    refine ⟨{ s with generated_1s := s.generated_1s + 1, position := s.position + 1 },
            ?_, ?_, rfl, rfl, hrl, by dsimp only; omega⟩
    · unfold FormatR8.read_bit
      rw [if_neg (by omega), if_pos h1]
    · unfold r8Remaining r8Pending
      dsimp only
      rw [show s.run_length_1s - (s.generated_1s + 1) = 0 by omega]
      simp
  · by_cases h2 : s.generated_0s < s.run_length_0s
    · obtain ⟨k, hk⟩ : ∃ k, s.run_length_0s - s.generated_0s = k + 1 :=
        ⟨s.run_length_0s - s.generated_0s - 1, by omega⟩
      have hRs : r8Remaining s = false ::
          (List.replicate k false ++ r8Tail (r8SpecRuns s.input)) := by
        unfold r8Remaining r8Pending
        rw [show s.run_length_1s - s.generated_1s = 0 by omega, hk]
        simp [List.replicate_succ]
      rw [hRs] at hR
      obtain ⟨hb, hrest⟩ := List.cons_eq_cons.mp hR
      subst hb
      subst hrest
      refine ⟨{ s with generated_0s := s.generated_0s + 1, position := s.position + 1 },
              ?_, ?_, rfl, rfl, hrl, by dsimp only; omega⟩
      · unfold FormatR8.read_bit
        rw [if_neg (by omega), if_neg h1, if_pos h2]
      · unfold r8Remaining r8Pending
        dsimp only
        rw [show s.run_length_1s - s.generated_1s = 0 by omega,
            show s.run_length_0s - (s.generated_0s + 1) = k by omega]
        simp
    · have hRs : r8Remaining s = r8Tail (r8SpecRuns s.input) := by
        unfold r8Remaining r8Pending
        rw [show s.run_length_1s - s.generated_1s = 0 by omega,
            show s.run_length_0s - s.generated_0s = 0 by omega]
        simp
      rw [hRs] at hR
      obtain ⟨r, rest0, hin⟩ : ∃ r rest0, s.input = r :: rest0 := by
        cases hc : s.input with
        | nil =>
          rw [hc, r8SpecRuns_nil] at hR
          simp [r8Tail] at hR
        | cons a c => exact ⟨a, c, rfl⟩
      rw [hin, r8SpecRuns_cons, r8Tail_cons] at hR
      obtain ⟨hb, hrest⟩ := List.cons_eq_cons.mp hR
      subst hb
      subst hrest
      refine ⟨{ s with input := (FormatR8.readRun (r :: rest0) 0).2, run_length_0s := (FormatR8.readRun (r :: rest0) 0).1, run_length_1s := 1, generated_0s := 0, generated_1s := 1, position := s.position + 1 },
              ?_, ?_, rfl, rfl, le_rfl, le_rfl⟩
      · unfold FormatR8.read_bit
        rw [if_neg (by omega), if_neg h1, if_neg h2]
        unfold FormatR8.update_run_length
        rw [hin]
      · unfold r8Remaining r8Pending
        dsimp only
        simp

/-- `is_end_of_record` reports exactly "record full or no bit remains", and
only rotates the descriptor state without changing the remaining bits. -/
theorem r8_eor (s : FormatR8) (hrl : s.run_length_1s ≤ 1) :
    (FormatR8.is_end_of_record s).1 =
      decide (s.position ≥ s.bits_per_record ∨ r8Remaining s = []) ∧
    r8Remaining (FormatR8.is_end_of_record s).2 = r8Remaining s ∧
    (FormatR8.is_end_of_record s).2.position = s.position ∧
    (FormatR8.is_end_of_record s).2.bits_per_record = s.bits_per_record ∧
    (FormatR8.is_end_of_record s).2.run_length_1s ≤ 1 := by
  unfold FormatR8.is_end_of_record
  split_ifs with hp h0 h1
  · refine ⟨?_, rfl, rfl, rfl, hrl⟩
    simp [hp]
  · refine ⟨?_, rfl, rfl, rfl, hrl⟩
    have hne : r8Remaining s ≠ [] := by
      intro hc
      have hlen := congrArg List.length hc
      unfold r8Remaining r8Pending at hlen
      simp only [List.length_append, List.length_replicate, List.length_nil] at hlen
      omega
    simp [hp, hne]
  · refine ⟨?_, rfl, rfl, rfl, hrl⟩
    have hne : r8Remaining s ≠ [] := by
      intro hc
      have hlen := congrArg List.length hc
      unfold r8Remaining r8Pending at hlen
      simp only [List.length_append, List.length_replicate, List.length_nil] at hlen
      omega
    simp [hp, hne]
  · cases hin : s.input with
    | nil =>
      have hnone : FormatR8.update_run_length s = none := by
        unfold FormatR8.update_run_length
        rw [hin]
      rw [hnone]
      have hRnil : r8Remaining s = [] := by
        unfold r8Remaining r8Pending
        rw [show s.run_length_1s - s.generated_1s = 0 by omega,
            show s.run_length_0s - s.generated_0s = 0 by omega, hin, r8SpecRuns_nil]
        simp [r8Tail]
      refine ⟨?_, rfl, rfl, rfl, hrl⟩
      simp [hRnil]
    | cons r rest0 =>
      have hsome : FormatR8.update_run_length s =
          some { s with input := (FormatR8.readRun (r :: rest0) 0).2, run_length_0s := (FormatR8.readRun (r :: rest0) 0).1, run_length_1s := 1, generated_0s := 0, generated_1s := 0 } := by
        unfold FormatR8.update_run_length
        rw [hin]
      rw [hsome]
      have hRs : r8Remaining s = r8Tail (r8SpecRuns s.input) := by
        unfold r8Remaining r8Pending
        rw [show s.run_length_1s - s.generated_1s = 0 by omega,
            show s.run_length_0s - s.generated_0s = 0 by omega]
        simp
      have hRne : r8Remaining s ≠ [] := by
        rw [hRs, hin, r8SpecRuns_cons, r8Tail_cons]
        simp
      refine ⟨?_, ?_, rfl, rfl, by norm_num⟩
      · simp [hp, hRne]
      · rw [hRs, hin, r8SpecRuns_cons, r8Tail_cons]
        unfold r8Remaining r8Pending
        dsimp only
        simp

/-- Reading `n` available bits (with the record length not yet exceeded)
yields exactly the first `n` remaining bits, leaving the rest owed. -/
theorem r8_trace : ∀ (n : Nat) (s : FormatR8), s.run_length_1s ≤ 1 →
    n ≤ s.bits_per_record - s.position → n ≤ (r8Remaining s).length →
    (readBitsG FormatR8.read_bit s n).1 = .ok ((r8Remaining s).take n) ∧
    r8Remaining (readBitsG FormatR8.read_bit s n).2 = (r8Remaining s).drop n ∧
    (readBitsG FormatR8.read_bit s n).2.position = s.position + n ∧
    (readBitsG FormatR8.read_bit s n).2.bits_per_record = s.bits_per_record ∧
    (readBitsG FormatR8.read_bit s n).2.run_length_1s ≤ 1 := by
  intro n
  induction n with
  | zero =>
    intro s hrl _ _
    exact ⟨by simp [readBitsG], by simp [readBitsG], by simp [readBitsG],
           by simp [readBitsG], by simpa [readBitsG] using hrl⟩
  | succ n ih =>
    intro s hrl hn hlen
    obtain ⟨b, rest, hR⟩ : ∃ b rest, r8Remaining s = b :: rest := by
      cases hc : r8Remaining s with
      | nil => rw [hc] at hlen; simp at hlen
      | cons a c => exact ⟨a, c, rfl⟩
    obtain ⟨s1, hrb, hR1, hp1, hb1, hrl1, -⟩ :=
      r8_step_cons s (by omega) hrl b rest hR
    have hlen1 : n ≤ (r8Remaining s1).length := by
      rw [hR1]
      have hl : (r8Remaining s).length = rest.length + 1 := by rw [hR]; simp
      omega
    have hn1 : n ≤ s1.bits_per_record - s1.position := by
      rw [hb1, hp1]
      omega
    obtain ⟨ih1, ih2, ih3, ih4, ih5⟩ := ih s1 hrl1 hn1 hlen1
    unfold readBitsG
    rw [hrb]
    dsimp only
    rcases hr2 : readBitsG FormatR8.read_bit s1 n with ⟨r2, s2⟩
    rw [hr2] at ih1 ih2 ih3 ih4 ih5
    dsimp only at ih1 ih2 ih3 ih4 ih5
    cases r2 with
    | error e => simp at ih1
    | ok bs2 =>
      dsimp only
      have hbs2 : bs2 = (r8Remaining s1).take n := by
        simpa using ih1
      refine ⟨?_, ?_, ?_, ?_, ih5⟩
      · rw [hR, hbs2, hR1]
        simp
      · rw [ih2, hR1, hR]
        simp
      · rw [ih3, hp1]
        omega
      · rw [ih4, hb1]

/-- The fresh R8 reader (constructor applied) owes exactly the readable bits
of the whole stream's descriptor list. -/
theorem initR8_remaining (input : List Nat) (bpr : Nat) :
    r8Remaining (initR8 input bpr) = r8RunsBits (r8SpecRuns input) ∧
    (initR8 input bpr).position = 0 ∧
    (initR8 input bpr).bits_per_record = bpr ∧
    (initR8 input bpr).run_length_1s ≤ 1 := by
  cases input with
  | nil =>
    refine ⟨?_, rfl, rfl, Nat.zero_le 1⟩
    unfold initR8 FormatR8.update_run_length
    simp [r8Remaining, r8Pending, r8SpecRuns_nil, r8Tail, r8RunsBits]
  | cons r rest0 =>
    have hinit : initR8 (r :: rest0) bpr =
        { input := (FormatR8.readRun (r :: rest0) 0).2, bits_per_record := bpr, position := 0, run_length_0s := (FormatR8.readRun (r :: rest0) 0).1, run_length_1s := 0, generated_0s := 0, generated_1s := 0 } := by
      unfold initR8 FormatR8.update_run_length
      rfl
    rw [hinit]
    refine ⟨?_, rfl, rfl, by norm_num⟩
    rw [r8SpecRuns_cons, r8RunsBits_eq]
    unfold r8Remaining r8Pending
    simp

/-! ## Claim C2 (amended statement) -/

/-- C2 (amended): the R8 reader's decoded bit sequence is the descriptor
zero-runs joined by single 1-bits with the final descriptor's terminating 1
omitted (`r8RunsBits ∘ r8SpecRuns`): reading
`min bits_per_record (length of that sequence)` bits from a fresh reader
yields exactly that sequence truncated to `bits_per_record`; when the
sequence is shorter than the record the next `read_bit` raises `EndOfStream`
(a new run descriptor is required but the stream is exhausted), and when the
record length truncates the sequence the next `read_bit` raises
`EndOfRecord`. -/
theorem c2_amended (input : List Nat) (bpr : Nat) :
    (readBitsG FormatR8.read_bit (initR8 input bpr)
        (min bpr (r8RunsBits (r8SpecRuns input)).length)).1 =
      .ok ((r8RunsBits (r8SpecRuns input)).take
        (min bpr (r8RunsBits (r8SpecRuns input)).length)) ∧
    ((r8RunsBits (r8SpecRuns input)).length < bpr →
      (FormatR8.read_bit (readBitsG FormatR8.read_bit (initR8 input bpr)
          (min bpr (r8RunsBits (r8SpecRuns input)).length)).2).1 = .error .EndOfStream) ∧
    (bpr ≤ (r8RunsBits (r8SpecRuns input)).length →
      (FormatR8.read_bit (readBitsG FormatR8.read_bit (initR8 input bpr)
          (min bpr (r8RunsBits (r8SpecRuns input)).length)).2).1 = .error .EndOfRecord) := by
  obtain ⟨hrem, hpos0, hbpr0, hrl0⟩ := initR8_remaining input bpr
  obtain ⟨h1, h2, h3, h4, h5⟩ := r8_trace (min bpr (r8RunsBits (r8SpecRuns input)).length)
    (initR8 input bpr) hrl0 (by omega) (by rw [hrem]; omega)
  refine ⟨by rw [h1, hrem], ?_, ?_⟩
  · intro hlt
    have hmin : min bpr (r8RunsBits (r8SpecRuns input)).length =
        (r8RunsBits (r8SpecRuns input)).length := by omega
    have hempty : r8Remaining (readBitsG FormatR8.read_bit (initR8 input bpr)
        (min bpr (r8RunsBits (r8SpecRuns input)).length)).2 = [] := by
      rw [h2, hrem, hmin]
      simp
    have hplt : (readBitsG FormatR8.read_bit (initR8 input bpr)
        (min bpr (r8RunsBits (r8SpecRuns input)).length)).2.position <
        (readBitsG FormatR8.read_bit (initR8 input bpr)
          (min bpr (r8RunsBits (r8SpecRuns input)).length)).2.bits_per_record := by
      rw [h3, h4, hpos0, hbpr0]
      omega
    rw [r8_step_empty _ hplt hempty]
  · intro hge
    have hpge : (readBitsG FormatR8.read_bit (initR8 input bpr)
        (min bpr (r8RunsBits (r8SpecRuns input)).length)).2.position ≥
        (readBitsG FormatR8.read_bit (initR8 input bpr)
          (min bpr (r8RunsBits (r8SpecRuns input)).length)).2.bits_per_record := by
      rw [h3, h4, hpos0, hbpr0]
      omega
    rw [FormatR8.read_bit, if_pos hpge]

/-- Witness for C2 (amended) at concrete inputs: descriptors `[3]` under a
5-bit record (stream runs short: `EndOfStream`) and under a 2-bit record
(record truncates: `EndOfRecord`). -/
theorem c2_amended_witness :
    (readBitsG FormatR8.read_bit (initR8 [3] 5)
        (min 5 (r8RunsBits (r8SpecRuns [3])).length)).1 =
      .ok ((r8RunsBits (r8SpecRuns [3])).take (min 5 (r8RunsBits (r8SpecRuns [3])).length)) ∧
    (FormatR8.read_bit (readBitsG FormatR8.read_bit (initR8 [3] 5)
        (min 5 (r8RunsBits (r8SpecRuns [3])).length)).2).1 = .error .EndOfStream ∧
    (FormatR8.read_bit (readBitsG FormatR8.read_bit (initR8 [3] 2)
        (min 2 (r8RunsBits (r8SpecRuns [3])).length)).2).1 = .error .EndOfRecord :=
  ⟨(c2_amended [3] 5).1,
   (c2_amended [3] 5).2.1 (by simp [r8SpecRuns, FormatR8.readRun, r8RunsBits]),
   (c2_amended [3] 2).2.2 (by simp [r8SpecRuns, FormatR8.readRun, r8RunsBits])⟩

/-! ## Byte packing (claim C3) -/

/-- LSB-first value of a bit list — how `read_bytes` assembles a buffer
byte (`b |= bit << k`). -/
def packBits : List Bool → Nat
  | [] => 0
  | x :: xs => x.toNat ||| (packBits xs <<< 1)

/-- Split a bit list into `m` LSB-first bytes (zero-padded at the end). -/
def packChunks : Nat → List Bool → List Nat
  | 0, _ => []
  | m + 1, bits => packBits (bits.take 8) :: packChunks m (bits.drop 8)

/-- The LSB-first bits of one stream byte. -/
def byteBits (b : Nat) : List Bool := (List.range 8).map (fun i => b.testBit i)

theorem packBits_nil : packBits [] = 0 := rfl

theorem packBits_cons (x : Bool) (xs : List Bool) :
    packBits (x :: xs) = x.toNat ||| (packBits xs <<< 1) := rfl

theorem packBits_testBit : ∀ (l : List Bool) (j : Nat),
    (packBits l).testBit j = l.getD j false := by
  intro l
  induction l with
  | nil => intro j; simp [packBits]
  | cons x xs ih =>
    intro j
    cases j with
    | zero =>
      rw [packBits_cons]
      simp only [Nat.testBit_or, Nat.testBit_shiftLeft, Nat.testBit_zero]
      cases x <;> simp
    | succ j =>
      rw [packBits_cons]
      simp only [Nat.testBit_or, Nat.testBit_shiftLeft]
      have hx : (x.toNat).testBit (j + 1) = false := by
        apply Nat.testBit_eq_false_of_lt
        calc x.toNat < 2 ^ 1 := by cases x <;> norm_num
        _ ≤ 2 ^ (j + 1) := Nat.pow_le_pow_right (by norm_num) (by omega)
      rw [hx]
      simp [ih j]

theorem packBits_lt (l : List Bool) : packBits l < 2 ^ l.length := by
  induction l with
  | nil => simp [packBits]
  | cons x xs ih =>
    rw [packBits_cons, List.length_cons]
    apply Nat.or_lt_two_pow
    · calc x.toNat < 2 ^ 1 := by cases x <;> norm_num
      _ ≤ 2 ^ (xs.length + 1) := Nat.pow_le_pow_right (by norm_num) (by omega)
    · rw [Nat.shiftLeft_eq, pow_one, pow_succ]
      omega

theorem packChunks_nil : ∀ m, packChunks m [] = List.replicate m 0 := by
  intro m
  induction m with
  | zero => simp [packChunks]
  | succ m ih =>
    show packBits [] :: packChunks m [] = _
    rw [packBits_nil, ih, List.replicate_succ]

theorem packBits_replicate_false : ∀ k, packBits (List.replicate k false) = 0 := by
  intro k
  induction k with
  | zero => rfl
  | succ k ih =>
    rw [List.replicate_succ, packBits_cons, ih]
    rfl

theorem byteBits_length (b : Nat) : (byteBits b).length = 8 := by
  simp [byteBits]

theorem shiftLeft_or_distrib (a b i : Nat) : (a ||| b) <<< i = (a <<< i) ||| (b <<< i) := by
  apply Nat.eq_of_testBit_eq
  intro j
  simp only [Nat.testBit_or, Nat.testBit_shiftLeft]
  cases Nat.decLe i j with
  | isTrue h => simp [h]
  | isFalse h => simp [h]

theorem packBits_cons_shift (x : Bool) (xs : List Bool) (i : Nat) :
    packBits (x :: xs) <<< i = (x.toNat <<< i) ||| (packBits xs <<< (i + 1)) := by
  rw [packBits_cons, shiftLeft_or_distrib, ← Nat.shiftLeft_add, Nat.add_comm 1 i]

theorem packBits_take_byteBits (c n : Nat) (hn : n ≤ 8) (hc : c < 2 ^ n) :
    packBits ((byteBits c).take n) = c := by
  apply Nat.eq_of_testBit_eq
  intro j
  rw [packBits_testBit]
  rcases lt_or_ge j n with hj | hj
  · have hj8 : j < 8 := by omega
    simp [byteBits, List.getD_eq_getElem?_getD, List.getElem?_take, hj,
          List.getElem?_map, List.getElem?_range, hj8]
  · have hcj : c.testBit j = false := by
      apply Nat.testBit_eq_false_of_lt
      calc c < 2 ^ n := hc
      _ ≤ 2 ^ j := Nat.pow_le_pow_right (by norm_num) hj
    rw [hcj]
    simp [List.getD_eq_getElem?_getD, List.getElem?_take, Nat.not_lt.mpr hj]

theorem packBits_byteBits (c : Nat) (hc : c < 256) : packBits (byteBits c) = c := by
  have h := packBits_take_byteBits c 8 le_rfl (by simpa using hc)
  rwa [show (byteBits c).take 8 = byteBits c from by
    rw [← byteBits_length c]
    exact List.take_length _] at h

/-! ## Abstract correctness of the generic `read_bytes` loops (claim C3)

`R s` is the bit sequence the reader can still produce, `P` a state
invariant; `hstep`/`heor` say that `read_bit` consumes the head of `R` and
that `is_end_of_record` reports "record full or `R` exhausted" without
changing `R`. -/

theorem genByte_spec {σ : Type} (rb : σ → (Except Err Bool) × σ) (eor : σ → Bool × σ)
    (pos bpr : σ → Nat) (R : σ → List Bool) (P : σ → Prop)
    (hstep : ∀ s b rest, P s → pos s < bpr s → R s = b :: rest →
      (rb s).1 = .ok b ∧ P (rb s).2 ∧ R (rb s).2 = rest ∧
      pos (rb s).2 = pos s + 1 ∧ bpr (rb s).2 = bpr s)
    (heor : ∀ s, P s → (eor s).1 = decide (pos s ≥ bpr s ∨ R s = []) ∧
      R (eor s).2 = R s ∧ pos (eor s).2 = pos s ∧ bpr (eor s).2 = bpr s ∧ P (eor s).2) :
    ∀ (f i : Nat) (s : σ) (b : Nat), 8 - i = f → i ≤ 8 → (i = 8 → R s ≠ []) →
      P s → pos s < bpr s → min (8 - i) (bpr s - pos s) ≤ (R s).length →
      (genByte rb eor s b i).1 =
        .ok (min (8 - i) (bpr s - pos s),
          decide (bpr s - pos s ≤ min (8 - i) (bpr s - pos s) ∨
                  (R s).length ≤ min (8 - i) (bpr s - pos s))) ∧
      (genByte rb eor s b i).2.1 =
        (b ||| (packBits ((R s).take (min (8 - i) (bpr s - pos s))) <<< i)) ∧
      R (genByte rb eor s b i).2.2 = (R s).drop (min (8 - i) (bpr s - pos s)) ∧
      pos (genByte rb eor s b i).2.2 = pos s + min (8 - i) (bpr s - pos s) ∧
      bpr (genByte rb eor s b i).2.2 = bpr s ∧
      P (genByte rb eor s b i).2.2 := by
  intro f
  induction f with
  | zero =>
    intro i s b hf hle hne hP hpos hmin
    have hi : i = 8 := by omega
    subst hi
    have hRlen : 0 < (R s).length := by
      have := hne rfl
      cases hc : R s with
      | nil => exact absurd hc this
      | cons a c => simp [hc]
    rw [genByte, if_neg (by omega)]
    have h0 : min (8 - 8) (bpr s - pos s) = 0 := by simp
    rw [h0]
    refine ⟨?_, by simp [packBits], by simp, by simp, rfl, hP⟩
    have hd : ¬(bpr s - pos s ≤ 0 ∨ (R s).length ≤ 0) := by
      push_neg
      exact ⟨by omega, by omega⟩
    rw [decide_eq_false hd]
  | succ f ih =>
    intro i s b hf hle hne hP hpos hmin
    have hi : i < 8 := by omega
    have hk1 : 1 ≤ min (8 - i) (bpr s - pos s) := by omega
    obtain ⟨b0, rest, hR⟩ : ∃ b0 rest, R s = b0 :: rest := by
      cases hc : R s with
      | nil =>
        rw [hc] at hmin
        simp at hmin
        omega
      | cons a c => exact ⟨a, c, rfl⟩
    have hRlen : (R s).length = rest.length + 1 := by rw [hR]; simp
    obtain ⟨hs1, hsP, hsR, hspos, hsbpr⟩ := hstep s b0 rest hP hpos hR
    rw [genByte, if_pos hi]
    rcases hrb : rb s with ⟨r, s1⟩
    rw [hrb] at hs1 hsP hsR hspos hsbpr
    dsimp only at hs1 hsP hsR hspos hsbpr
    subst hs1
    dsimp only
    obtain ⟨he1, heR, hepos, hebpr, heP⟩ := heor s1 hsP
    rcases heo : eor s1 with ⟨flag, s2⟩
    rw [heo] at he1 heR hepos hebpr heP
    dsimp only at he1 heR hepos hebpr heP
    by_cases hcase : pos s1 ≥ bpr s1 ∨ R s1 = []
    · have hflag : flag = true := by rw [he1]; simp [hcase]
      subst hflag
      dsimp only
      have hrest0 : R s1 = rest := hsR
      have hk : min (8 - i) (bpr s - pos s) = 1 := by
        rcases hcase with h | h
        · rw [hspos, hsbpr] at h
          omega
        · rw [hrest0] at h
          subst h
          simp at hRlen
          omega
      rw [hk]
      have hflagval : (bpr s - pos s ≤ 1 ∨ (R s).length ≤ 1) := by
        rcases hcase with h | h
        · rw [hspos, hsbpr] at h
          left
          omega
        · rw [hrest0] at h
          subst h
          simp at hRlen
          omega
      refine ⟨by rw [decide_eq_true hflagval], ?_, ?_, ?_, ?_, heP⟩
      · rw [hR]
        simp [packBits_cons, packBits_nil]
      · rw [heR, hsR, hR]
        simp
      · rw [hepos, hspos]
      · rw [hebpr, hsbpr]
    · have hflag : flag = false := by rw [he1]; simp [hcase]
      subst hflag
      dsimp only
      push_neg at hcase
      have hpos2 : pos s2 < bpr s2 := by
        rw [hepos, hebpr]
        omega
      have hR2 : R s2 = rest := by rw [heR, hsR]
      have hmin2 : min (8 - (i + 1)) (bpr s2 - pos s2) ≤ (R s2).length := by
        rw [hR2, hepos, hebpr, hspos, hsbpr]
        omega
      obtain ⟨g1, g2, g3, g4, g5, g6⟩ := ih (i + 1) s2 (b ||| b0.toNat <<< i)
        (by omega) (by omega) (fun _ => by rw [hR2, ← hsR]; exact hcase.2) heP hpos2 hmin2
      rcases hgb : genByte rb eor s2 (b ||| b0.toNat <<< i) (i + 1) with ⟨r2, bf, sf⟩
      rw [hgb] at g1 g2 g3 g4 g5 g6
      dsimp only at g1 g2 g3 g4 g5 g6
      subst g1
      dsimp only
      have hT2 : bpr s2 - pos s2 = bpr s - pos s - 1 := by
        rw [hepos, hebpr, hspos, hsbpr]
        omega
      have hkk : min (8 - (i + 1)) (bpr s2 - pos s2) + 1 = min (8 - i) (bpr s - pos s) := by
        rw [hT2]
        omega
      refine ⟨?_, ?_, ?_, ?_, ?_, g6⟩
      · have hdec : decide (bpr s2 - pos s2 ≤ min (8 - (i + 1)) (bpr s2 - pos s2) ∨
            (R s2).length ≤ min (8 - (i + 1)) (bpr s2 - pos s2)) =
            decide (bpr s - pos s ≤ min (8 - i) (bpr s - pos s) ∨
            (R s).length ≤ min (8 - i) (bpr s - pos s)) := by
          rw [decide_eq_decide]
          rw [hT2, hR2, hRlen, ← hkk]
          omega
        rw [hdec, hkk]
      · rw [g2, hR2, hR, ← hkk]
        rw [List.take_succ_cons, packBits_cons_shift, Nat.or_assoc]
      · rw [g3, hR2, hR, ← hkk]
        simp
      · rw [g4, hepos, hspos, ← hkk]
        omega
      · rw [g5, hebpr, hsbpr]

/-- Correctness of the outer loop of the generic `read_bytes` on a
zero-initialised buffer: it reads `min (8·m) (bits left in the record)` bits
(assuming the remaining bit sequence is long enough) and the buffer becomes
those bits packed LSB-first into `m` bytes. -/
theorem genLoop_spec {σ : Type} (rb : σ → (Except Err Bool) × σ) (eor : σ → Bool × σ)
    (pos bpr : σ → Nat) (R : σ → List Bool) (P : σ → Prop)
    (hstep : ∀ s b rest, P s → pos s < bpr s → R s = b :: rest →
      (rb s).1 = .ok b ∧ P (rb s).2 ∧ R (rb s).2 = rest ∧
      pos (rb s).2 = pos s + 1 ∧ bpr (rb s).2 = bpr s)
    (heor : ∀ s, P s → (eor s).1 = decide (pos s ≥ bpr s ∨ R s = []) ∧
      R (eor s).2 = R s ∧ pos (eor s).2 = pos s ∧ bpr (eor s).2 = bpr s ∧ P (eor s).2) :
    ∀ (m : Nat) (s : σ), P s → pos s < bpr s →
      min (8 * m) (bpr s - pos s) ≤ (R s).length →
      (genLoop rb eor s (List.replicate m 0)).1 = .ok (min (8 * m) (bpr s - pos s)) ∧
      (genLoop rb eor s (List.replicate m 0)).2.1 =
        packChunks m ((R s).take (min (8 * m) (bpr s - pos s))) := by
  intro m
  induction m with
  | zero =>
    intro s hP hpos hmin
    simp [genLoop, packChunks]
  | succ m ih =>
    intro s hP hpos hmin
    have hmin8 : min (8 - 0) (bpr s - pos s) ≤ (R s).length := by omega
    obtain ⟨g1, g2, g3, g4, g5, g6⟩ := genByte_spec rb eor pos bpr R P hstep heor
      (8 - 0) 0 s 0 rfl (by omega) (by omega) hP hpos hmin8
    simp only [Nat.sub_zero] at g1 g2 g3 g4
    rcases hgb : genByte rb eor s 0 0 with ⟨r, bf, sf⟩
    rw [hgb] at g1 g2 g3 g4 g5 g6
    dsimp only at g1 g2 g3 g4 g5 g6
    subst g1
    have hbf : bf = packBits ((R s).take (min 8 (bpr s - pos s))) := by
      rw [g2]
      simp
    by_cases hend : bpr s - pos s ≤ min 8 (bpr s - pos s) ∨
        (R s).length ≤ min 8 (bpr s - pos s)
    · have hred : genLoop rb eor s (List.replicate (m + 1) 0) =
          (.ok (min 8 (bpr s - pos s)), bf :: List.replicate m 0, sf) := by
        rw [List.replicate_succ, genLoop, hgb, decide_eq_true hend]
      rw [hred]
      have hk : min (8 * (m + 1)) (bpr s - pos s) = min 8 (bpr s - pos s) := by
        rcases hend with h | h
        · omega
        · omega
      constructor
      · rw [hk]
      · show bf :: List.replicate m 0 =
          packChunks (m + 1) ((R s).take (min (8 * (m + 1)) (bpr s - pos s)))
        rw [hbf, hk]
        have hlen : ((R s).take (min 8 (bpr s - pos s))).length ≤ 8 := by
          simp
        show _ = packBits (((R s).take (min 8 (bpr s - pos s))).take 8) ::
          packChunks m (((R s).take (min 8 (bpr s - pos s))).drop 8)
        rw [List.take_of_length_le hlen, List.drop_eq_nil_of_le hlen, packChunks_nil]
    · have hdec : decide (bpr s - pos s ≤ min 8 (bpr s - pos s) ∨
          (R s).length ≤ min 8 (bpr s - pos s)) = false := decide_eq_false hend
      push_neg at hend
      have hk8 : min 8 (bpr s - pos s) = 8 := by omega
      rw [hk8] at g3 g4 hbf
      have hpos2 : pos sf < bpr sf := by
        rw [g4, g5]
        omega
      have hmin2 : min (8 * m) (bpr sf - pos sf) ≤ (R sf).length := by
        rw [g3, g4, g5]
        simp only [List.length_drop]
        omega
      obtain ⟨l1, l2⟩ := ih sf g6 hpos2 hmin2
      rcases hgl : genLoop rb eor sf (List.replicate m 0) with ⟨rl, buf2, sf2⟩
      rw [hgl] at l1 l2
      dsimp only at l1 l2
      subst l1
      have hred : genLoop rb eor s (List.replicate (m + 1) 0) =
          (.ok (min 8 (bpr s - pos s) + min (8 * m) (bpr sf - pos sf)), bf :: buf2, sf2) := by
        rw [List.replicate_succ, genLoop, hgb, hdec]
        dsimp only
        rw [hgl]
      rw [hred]
      have hT2 : bpr sf - pos sf = bpr s - pos s - 8 := by
        rw [g4, g5]
        omega
      have htot : 8 + min (8 * m) (bpr sf - pos sf) = min (8 * (m + 1)) (bpr s - pos s) := by
        rw [hT2]
        omega
      constructor
      · show Except.ok (min 8 (bpr s - pos s) + min (8 * m) (bpr sf - pos sf)) =
          Except.ok (min (8 * (m + 1)) (bpr s - pos s))
        rw [hk8, htot]
      · show bf :: buf2 =
          packChunks (m + 1) ((R s).take (min (8 * (m + 1)) (bpr s - pos s)))
        rw [l2, hbf, g3, hT2]
        show _ = packBits (((R s).take (min (8 * (m + 1)) (bpr s - pos s))).take 8) ::
          packChunks m (((R s).take (min (8 * (m + 1)) (bpr s - pos s))).drop 8)
        have h8le : 8 ≤ min (8 * (m + 1)) (bpr s - pos s) := by omega
        rw [List.take_take, Nat.min_eq_left h8le, List.drop_take]
        have hkk : min (8 * m) (bpr s - pos s - 8) = min (8 * (m + 1)) (bpr s - pos s) - 8 := by
          omega
        rw [hkk]

/-- Correctness of the generic `read_bytes` (`MeasureRecordReader::read_bytes`)
on a zero-initialised buffer. -/
theorem genReadBytes_spec {σ : Type} (rb : σ → (Except Err Bool) × σ) (eor : σ → Bool × σ)
    (pos bpr : σ → Nat) (R : σ → List Bool) (P : σ → Prop)
    (hstep : ∀ s b rest, P s → pos s < bpr s → R s = b :: rest →
      (rb s).1 = .ok b ∧ P (rb s).2 ∧ R (rb s).2 = rest ∧
      pos (rb s).2 = pos s + 1 ∧ bpr (rb s).2 = bpr s)
    (heor : ∀ s, P s → (eor s).1 = decide (pos s ≥ bpr s ∨ R s = []) ∧
      R (eor s).2 = R s ∧ pos (eor s).2 = pos s ∧ bpr (eor s).2 = bpr s ∧ P (eor s).2) :
    ∀ (m : Nat) (s : σ), P s → min (8 * m) (bpr s - pos s) ≤ (R s).length →
      (genReadBytes rb eor pos bpr s (List.replicate m 0)).1 =
        .ok (min (8 * m) (bpr s - pos s)) ∧
      (genReadBytes rb eor pos bpr s (List.replicate m 0)).2.1 =
        packChunks m ((R s).take (min (8 * m) (bpr s - pos s))) := by
  intro m s hP hmin
  unfold genReadBytes
  by_cases hpos : pos s ≥ bpr s
  · rw [if_pos hpos]
    have h0 : min (8 * m) (bpr s - pos s) = 0 := by omega
    rw [h0]
    simp [packChunks_nil]
  · rw [if_neg hpos]
    exact genLoop_spec rb eor pos bpr R P hstep heor m s hP (by omega) hmin

/-! ## FormatB8 as a stream of bits -/

/-- The unconsumed bits of the pending B8 payload byte, LSB first. -/
def payloadBits (s : FormatB8) : List Bool :=
  (List.range s.bits_available).map (fun i => s.payload.toNat.testBit i)

/-- All bits of a byte stream, LSB-first inside each byte. -/
def bitsOfBytes : List Nat → List Bool
  | [] => []
  | b :: rest => byteBits b ++ bitsOfBytes rest

/-- The bits a B8 reader can still produce. -/
def b8Remaining (s : FormatB8) : List Bool := payloadBits s ++ bitsOfBytes s.input

/-- Well-formedness of a B8 reader state: at most one byte pending, the
pending payload in range for its remaining bit count, stream bytes below
256. -/
def B8Inv (s : FormatB8) : Prop :=
  s.bits_available ≤ 8 ∧
  (0 < s.bits_available → 0 ≤ s.payload ∧ s.payload.toNat < 2 ^ s.bits_available) ∧
  (∀ b ∈ s.input, b < 256)

theorem bitsOfBytes_length (l : List Nat) : (bitsOfBytes l).length = 8 * l.length := by
  induction l with
  | nil => simp [bitsOfBytes]
  | cons b rest ih =>
    simp only [bitsOfBytes, List.length_append, byteBits_length, ih, List.length_cons]
    ring

/-- `maybe_update_payload` does not change the remaining bit stream, the
cursor or the record length, preserves the invariant, and afterwards
`payload = -1` holds exactly on an exhausted stream. -/
theorem maybe_update_payload_spec (s : FormatB8) (hI : B8Inv s) :
    B8Inv (FormatB8.maybe_update_payload s) ∧
    b8Remaining (FormatB8.maybe_update_payload s) = b8Remaining s ∧
    (FormatB8.maybe_update_payload s).position = s.position ∧
    (FormatB8.maybe_update_payload s).bits_per_record = s.bits_per_record ∧
    ((FormatB8.maybe_update_payload s).payload = -1 ↔ b8Remaining s = []) ∧
    (b8Remaining s = [] → (FormatB8.maybe_update_payload s).bits_available = 0) ∧
    (b8Remaining s ≠ [] → 0 < (FormatB8.maybe_update_payload s).bits_available) := by
  by_cases hba : s.bits_available > 0
  · have ht : FormatB8.maybe_update_payload s = s := by
      unfold FormatB8.maybe_update_payload
      rw [if_pos hba]
    rw [ht]
    have hpl : 0 ≤ s.payload := (hI.2.1 hba).1
    have hne : b8Remaining s ≠ [] := by
      unfold b8Remaining payloadBits
      simp only [ne_eq, List.append_eq_nil, List.map_eq_nil_iff, List.range_eq_nil]
      intro hc
      omega
    exact ⟨hI, rfl, rfl, rfl, ⟨fun h => absurd h (by omega), fun h => absurd h hne⟩,
      fun h => absurd h hne, fun _ => hba⟩
  · push_neg at hba
    have hba0 : s.bits_available = 0 := by omega
    have hplB : payloadBits s = [] := by simp [payloadBits, hba0]
    have hRs : b8Remaining s = bitsOfBytes s.input := by
      unfold b8Remaining
      rw [hplB, List.nil_append]
    have hmu : FormatB8.maybe_update_payload s =
        (let p := getc s.input;
         if p.1 = -1 then { s with payload := p.1, input := p.2 }
         else { s with payload := p.1, input := p.2, bits_available := 8 }) := by
      unfold FormatB8.maybe_update_payload
      rw [if_neg (by omega)]
    cases hin : s.input with
    | nil =>
      have ht : FormatB8.maybe_update_payload s = { s with payload := -1, input := [] } := by
        rw [hmu, hin]
        dsimp only [getc]
        rw [if_pos rfl]
      rw [ht, hRs, hin]
      refine ⟨⟨by dsimp only; omega, fun h => by dsimp only at h; omega, by simp⟩, ?_, rfl, rfl,
        ?_, ?_, ?_⟩
      · unfold b8Remaining payloadBits
        dsimp only
        rw [hba0]
        simp [bitsOfBytes]
      · simp [bitsOfBytes]
      · intro _
        exact hba0
      · intro h
        exact absurd (show bitsOfBytes [] = [] from rfl) h
    | cons c rest =>
      have hcneg : ¬((c : Int) = -1) := by omega
      have ht : FormatB8.maybe_update_payload s =
          { s with payload := (c : Int), input := rest, bits_available := 8 } := by
        rw [hmu, hin]
        dsimp only [getc]
        rw [if_neg hcneg]
      have hc256 : c < 256 := hI.2.2 c (by rw [hin]; exact List.mem_cons_self c rest)
      rw [ht, hRs, hin]
      refine ⟨⟨by dsimp only; omega, fun _ => ⟨by dsimp only; omega, ?_⟩,
        fun b hb => hI.2.2 b (by rw [hin]; exact List.mem_cons_of_mem c hb)⟩, ?_, rfl, rfl,
        ⟨fun h => absurd h (by dsimp only; omega), fun h => ?_⟩, fun h => ?_, fun _ => ?_⟩
      · dsimp only
        rw [Int.toNat_natCast]
        omega
      · unfold b8Remaining payloadBits
        dsimp only
        rw [Int.toNat_natCast]
        show (List.range 8).map (fun i => c.testBit i) ++ bitsOfBytes rest = bitsOfBytes (c :: rest)
        rw [show bitsOfBytes (c :: rest) = byteBits c ++ bitsOfBytes rest from rfl]
        rfl
      · exact absurd h (by simp [bitsOfBytes, byteBits])
      · exact absurd h (by simp [bitsOfBytes, byteBits])
      · show (0 : Nat) < 8
        omega

/-- A B8 `read_bit` below the record bound consumes the head of the
remaining bit stream. -/
theorem b8_step (s : FormatB8) (b : Bool) (rest : List Bool) (hI : B8Inv s)
    (hpos : s.position < s.bits_per_record) (hR : b8Remaining s = b :: rest) :
    (FormatB8.read_bit s).1 = .ok b ∧ B8Inv (FormatB8.read_bit s).2 ∧
    b8Remaining (FormatB8.read_bit s).2 = rest ∧
    (FormatB8.read_bit s).2.position = s.position + 1 ∧
    (FormatB8.read_bit s).2.bits_per_record = s.bits_per_record := by
  obtain ⟨hI', hRm, hpos', hbpr', hEOF, hba0, hbapos⟩ := maybe_update_payload_spec s hI
  have hne : b8Remaining s ≠ [] := by rw [hR]; simp
  have hbat : 0 < (FormatB8.maybe_update_payload s).bits_available := hbapos hne
  have hpayload : 0 ≤ (FormatB8.maybe_update_payload s).payload := (hI'.2.1 hbat).1
  have hpneg : ¬ (FormatB8.maybe_update_payload s).payload = -1 := by omega
  have hrb : FormatB8.read_bit s =
      (.ok (decide ((FormatB8.maybe_update_payload s).payload % 2 = 1)),
       { FormatB8.maybe_update_payload s with
           payload := (FormatB8.maybe_update_payload s).payload / 2,
           bits_available := (FormatB8.maybe_update_payload s).bits_available - 1,
           position := (FormatB8.maybe_update_payload s).position + 1 }) := by
    unfold FormatB8.read_bit
    rw [if_neg (by omega)]
    dsimp only
    rw [if_neg hpneg]
  obtain ⟨k, hk⟩ : ∃ k, (FormatB8.maybe_update_payload s).bits_available = k + 1 :=
    ⟨(FormatB8.maybe_update_payload s).bits_available - 1, by omega⟩
  have hdiv : ((FormatB8.maybe_update_payload s).payload / 2).toNat =
      (FormatB8.maybe_update_payload s).payload.toNat / 2 := by omega
  have hpl : payloadBits (FormatB8.maybe_update_payload s) =
      decide ((FormatB8.maybe_update_payload s).payload.toNat % 2 = 1) ::
        (List.range k).map
          (fun i => ((FormatB8.maybe_update_payload s).payload.toNat / 2).testBit i) := by
    unfold payloadBits
    rw [hk, List.range_succ_eq_map, List.map_cons, List.map_map]
    rw [show ((fun i => (FormatB8.maybe_update_payload s).payload.toNat.testBit i) ∘ Nat.succ) =
        (fun i => ((FormatB8.maybe_update_payload s).payload.toNat / 2).testBit i) from
      funext fun i => by simp [Function.comp, Nat.testBit_add_one]]
    rw [Nat.testBit_zero]
  have hRt : b8Remaining (FormatB8.maybe_update_payload s) = b :: rest := hRm.trans hR
  rw [show b8Remaining (FormatB8.maybe_update_payload s) =
      payloadBits (FormatB8.maybe_update_payload s) ++
        bitsOfBytes (FormatB8.maybe_update_payload s).input from rfl, hpl,
    List.cons_append] at hRt
  have hb : decide ((FormatB8.maybe_update_payload s).payload.toNat % 2 = 1) = b :=
    (List.cons.injEq _ _ _ _ ▸ hRt).1
  have hrest : (List.range k).map
      (fun i => ((FormatB8.maybe_update_payload s).payload.toNat / 2).testBit i) ++
      bitsOfBytes (FormatB8.maybe_update_payload s).input = rest :=
    (List.cons.injEq _ _ _ _ ▸ hRt).2
  rw [hrb]
  have h8 := hI'.1
  refine ⟨?_, ⟨by dsimp only; omega, fun h => ⟨?_, ?_⟩, hI'.2.2⟩, ?_, ?_, ?_⟩
  · show Except.ok (decide ((FormatB8.maybe_update_payload s).payload % 2 = 1)) = Except.ok b
    rw [← hb]
    congr 1
    rw [decide_eq_decide]
    omega
  · dsimp only
    exact Int.ediv_nonneg hpayload (by norm_num)
  · dsimp only
    dsimp only at h
    have hub := (hI'.2.1 hbat).2
    rw [hk] at hub
    rw [hdiv, hk]
    rw [pow_succ] at hub
    have : k + 1 - 1 = k := by omega
    rw [this]
    omega
  · unfold b8Remaining payloadBits
    dsimp only
    rw [hk, hdiv]
    rw [show k + 1 - 1 = k from by omega]
    exact hrest
  · dsimp only
    rw [hpos']
  · dsimp only
    rw [hbpr']

/-- B8 `is_end_of_record` reports "record full or stream exhausted" and
changes nothing observable. -/
theorem b8_eor (s : FormatB8) (hI : B8Inv s) :
    (FormatB8.is_end_of_record s).1 =
      decide (s.position ≥ s.bits_per_record ∨ b8Remaining s = []) ∧
    b8Remaining (FormatB8.is_end_of_record s).2 = b8Remaining s ∧
    (FormatB8.is_end_of_record s).2.position = s.position ∧
    (FormatB8.is_end_of_record s).2.bits_per_record = s.bits_per_record ∧
    B8Inv (FormatB8.is_end_of_record s).2 := by
  obtain ⟨hI', hRm, hpos', hbpr', hEOF, hba0, hbapos⟩ := maybe_update_payload_spec s hI
  have h2 : (FormatB8.is_end_of_record s).2 = FormatB8.maybe_update_payload s := rfl
  have h1 : (FormatB8.is_end_of_record s).1 =
      decide (((FormatB8.maybe_update_payload s).bits_available = 0 ∧
          (FormatB8.maybe_update_payload s).payload = -1) ∨
        (FormatB8.maybe_update_payload s).position ≥
          (FormatB8.maybe_update_payload s).bits_per_record) := rfl
  refine ⟨?_, by rw [h2]; exact hRm, by rw [h2]; exact hpos', by rw [h2]; exact hbpr',
    by rw [h2]; exact hI'⟩
  rw [h1, decide_eq_decide, hpos', hbpr']
  constructor
  · rintro (⟨_, h⟩ | h)
    · exact Or.inr (hEOF.mp h)
    · exact Or.inl h
  · rintro (h | h)
    · exact Or.inr h
    · exact Or.inl ⟨hba0 h, hEOF.mpr h⟩

/-- Packing the first `n` bits of a byte stream back into bytes recovers the
bytes, provided the padding bits above the cut are zero. -/
theorem packChunks_bytes : ∀ (input : List Nat) (m n : Nat),
    n ≤ 8 * input.length → n ≤ 8 * m → (∀ b ∈ input, b < 256) →
    (n % 8 = 0 ∨ input.getD (n / 8) 0 < 2 ^ (n % 8)) →
    packChunks m ((bitsOfBytes input).take n) =
      input.take ((n + 7) / 8) ++ List.replicate (m - (n + 7) / 8) 0 := by
  intro input
  induction input with
  | nil =>
    intro m n h1 h2 h3 h4
    have hn : n = 0 := by simp at h1; omega
    subst hn
    simp [bitsOfBytes, packChunks_nil]
  | cons c cs ih =>
    intro m n h1 h2 h3 h4
    by_cases hn0 : n = 0
    · subst hn0
      simp [packChunks_nil]
    · obtain ⟨m', hm⟩ : ∃ m', m = m' + 1 := ⟨m - 1, by omega⟩
      subst hm
      have hc : c < 256 := h3 c (List.mem_cons_self c cs)
      have hbl : (byteBits c).length = 8 := byteBits_length c
      rw [show bitsOfBytes (c :: cs) = byteBits c ++ bitsOfBytes cs from rfl]
      rw [List.take_append_eq_append_take, hbl]
      by_cases hn8 : 8 ≤ n
      · rw [List.take_of_length_le (by rw [hbl]; exact hn8)]
        show packBits ((byteBits c ++ (bitsOfBytes cs).take (n - 8)).take 8) ::
          packChunks m' ((byteBits c ++ (bitsOfBytes cs).take (n - 8)).drop 8) = _
        rw [List.take_append_eq_append_take, hbl, Nat.sub_self, List.take_zero,
          List.append_nil, List.take_of_length_le (le_of_eq hbl)]
        rw [List.drop_append_eq_append_drop, hbl, Nat.sub_self, List.drop_zero,
          List.drop_eq_nil_of_le (le_of_eq hbl), List.nil_append]
        rw [packBits_byteBits c hc]
        have hidx : n / 8 = (n - 8) / 8 + 1 := by omega
        have hmod : n % 8 = (n - 8) % 8 := by omega
        rw [hidx, hmod, List.getD_cons_succ] at h4
        rw [ih m' (n - 8) (by simp only [List.length_cons] at h1; omega) (by omega)
          (fun b hb => h3 b (List.mem_cons_of_mem c hb)) h4]
        have h7 : (n + 7) / 8 = (n - 8 + 7) / 8 + 1 := by omega
        rw [h7, List.take_succ_cons, List.cons_append]
        rw [show m' + 1 - ((n - 8 + 7) / 8 + 1) = m' - (n - 8 + 7) / 8 from by omega]
      · have hpad : c < 2 ^ n := by
          rcases h4 with h | h
          · omega
          · rw [show n / 8 = 0 from by omega, List.getD_cons_zero,
              show n % 8 = n from by omega] at h
            exact h
        rw [show n - 8 = 0 from by omega, List.take_zero, List.append_nil]
        have hlt : ((byteBits c).take n).length ≤ 8 := by
          rw [List.length_take, hbl]
          omega
        show packBits (((byteBits c).take n).take 8) ::
          packChunks m' (((byteBits c).take n).drop 8) = _
        rw [List.take_of_length_le hlt, List.drop_eq_nil_of_le hlt, packChunks_nil]
        rw [packBits_take_byteBits c n (by omega) hpad]
        rw [show (n + 7) / 8 = 1 from by omega, show m' + 1 - 1 = m' from by omega]
        rfl

/-- For a fresh B8 reader the bulk (`fread`) `read_bytes` path and the
generic bit-by-bit fallback return the same count and the same buffer,
given enough stream bytes and zero padding above the record's last bit. -/
theorem b8_bulk_eq_generic (input : List Nat) (bpr m : Nat)
    (hbytes : ∀ b ∈ input, b < 256)
    (hsuff : min (8 * m) bpr ≤ 8 * input.length)
    (hpad : min (8 * m) bpr % 8 = 0 ∨
      input.getD (min (8 * m) bpr / 8) 0 < 2 ^ (min (8 * m) bpr % 8)) :
    (FormatB8.read_bytes (initB8 input bpr) (List.replicate m 0)).1 =
      (genReadBytes FormatB8.read_bit FormatB8.is_end_of_record (fun t => t.position)
        (fun t => t.bits_per_record) (initB8 input bpr) (List.replicate m 0)).1 ∧
    (FormatB8.read_bytes (initB8 input bpr) (List.replicate m 0)).2.1 =
      (genReadBytes FormatB8.read_bit FormatB8.is_end_of_record (fun t => t.position)
        (fun t => t.bits_per_record) (initB8 input bpr) (List.replicate m 0)).2.1 := by
  have hR0 : b8Remaining (initB8 input bpr) = bitsOfBytes input := by
    simp [b8Remaining, payloadBits, initB8]
  have hInv : B8Inv (initB8 input bpr) :=
    ⟨Nat.zero_le 8, fun h => absurd h (lt_irrefl 0), hbytes⟩
  obtain ⟨hg1, hg2⟩ := genReadBytes_spec FormatB8.read_bit FormatB8.is_end_of_record
    (fun t => t.position) (fun t => t.bits_per_record) b8Remaining B8Inv
    (fun s b rest hP hp hR => b8_step s b rest hP hp hR)
    (fun s hP => b8_eor s hP) m (initB8 input bpr) hInv
    (by show min (8 * m) (bpr - 0) ≤ (b8Remaining (initB8 input bpr)).length
        rw [hR0, bitsOfBytes_length]
        omega)
  have hg2' : (genReadBytes FormatB8.read_bit FormatB8.is_end_of_record (fun t => t.position)
      (fun t => t.bits_per_record) (initB8 input bpr) (List.replicate m 0)).2.1 =
      packChunks m ((bitsOfBytes input).take (min (8 * m) bpr)) := by
    rw [hg2, hR0]
    rfl
  by_cases hb0 : bpr = 0
  · have h1 : FormatB8.read_bytes (initB8 input bpr) (List.replicate m 0) =
        (.ok 0, List.replicate m 0, initB8 input bpr) := by
      unfold FormatB8.read_bytes
      rw [if_pos (show (initB8 input bpr).position ≥ (initB8 input bpr).bits_per_record from
        by show (0 : Nat) ≥ bpr; omega)]
    constructor
    · rw [h1, hg1]
      show Except.ok 0 = Except.ok (min (8 * m) (bpr - 0))
      rw [hb0]
      simp
    · rw [h1, hg2']
      show List.replicate m 0 = _
      rw [hb0]
      simp [packChunks_nil]
  · have hnbpos : ¬ (initB8 input bpr).position ≥ (initB8 input bpr).bits_per_record := by
      show ¬ ((0 : Nat) ≥ bpr)
      omega
    have hnba : ¬ (initB8 input bpr).bits_available > 0 := by
      show ¬ ((0 : Nat) > 0)
      omega
    have hbulk1 : (FormatB8.read_bytes (initB8 input bpr) (List.replicate m 0)).1 =
        .ok (min (8 * m) bpr) := by
      unfold FormatB8.read_bytes
      rw [if_neg hnbpos, if_neg hnba]
      dsimp only
      simp only [initB8, List.length_replicate]
      congr 1
      omega
    have hbulk2 : (FormatB8.read_bytes (initB8 input bpr) (List.replicate m 0)).2.1 =
        input.take ((min (8 * m) bpr + 7) / 8) ++
          List.replicate (m - (min (8 * m) bpr + 7) / 8) 0 := by
      unfold FormatB8.read_bytes
      rw [if_neg hnbpos, if_neg hnba]
      dsimp only
      simp only [initB8, List.length_replicate, List.drop_replicate]
      rw [show min ((min (8 * m) (bpr - 0) + 7) / 8) input.length =
        (min (8 * m) bpr + 7) / 8 from by omega]
    constructor
    · rw [hbulk1, hg1]
      rfl
    · rw [hbulk2, hg2',
        packChunks_bytes input m (min (8 * m) bpr) hsuff (min_le_left _ _) hbytes hpad]

/-! ## FormatR8 bulk `read_bytes` -/

/-- When R8 `is_end_of_record` answers `true` it has not changed the state. -/
theorem r8_eor_state (s : FormatR8) :
    (FormatR8.is_end_of_record s).1 = true → (FormatR8.is_end_of_record s).2 = s := by
  unfold FormatR8.is_end_of_record
  split_ifs with hp h0 h1
  · intro _
    rfl
  · intro h
    exact absurd h (by simp)
  · intro h
    exact absurd h (by simp)
  · rcases hu : FormatR8.update_run_length s with _ | t
    · intro _
      rfl
    · intro h
      exact absurd h (by simp)

/-- Projection form of `r8_step_cons`, matching the generic step interface. -/
theorem r8_hstep (s : FormatR8) (b : Bool) (rest : List Bool)
    (hrl : s.run_length_1s ≤ 1) (hpos : s.position < s.bits_per_record)
    (hR : r8Remaining s = b :: rest) :
    (FormatR8.read_bit s).1 = .ok b ∧ (FormatR8.read_bit s).2.run_length_1s ≤ 1 ∧
    r8Remaining (FormatR8.read_bit s).2 = rest ∧
    (FormatR8.read_bit s).2.position = s.position + 1 ∧
    (FormatR8.read_bit s).2.bits_per_record = s.bits_per_record := by
  obtain ⟨s', he, h1, h2, h3, h4, h5⟩ := r8_step_cons s hpos hrl b rest hR
  rw [he]
  exact ⟨rfl, h4, h1, h2, h3⟩

/-- The inner byte loop of the R8 bulk `read_bytes`: with enough decodable
bits it packs `min (8 - i) (bits left in the record)` bits into the byte and
reports whether it stopped short of filling the byte. -/
theorem r8Byte_spec : ∀ (f i : Nat) (s : FormatR8) (b : Nat), 8 - i = f → i ≤ 8 →
    s.run_length_1s ≤ 1 → s.run_length_1s ≤ s.generated_1s →
    min (8 - i) (s.bits_per_record - s.position) ≤ (r8Remaining s).length →
    (FormatR8.r8Byte s b i).1 =
      .ok (min (8 - i) (s.bits_per_record - s.position),
           decide (min (8 - i) (s.bits_per_record - s.position) < 8 - i)) ∧
    (FormatR8.r8Byte s b i).2.1 =
      (b ||| (packBits ((r8Remaining s).take
        (min (8 - i) (s.bits_per_record - s.position))) <<< i)) ∧
    r8Remaining (FormatR8.r8Byte s b i).2.2 =
      (r8Remaining s).drop (min (8 - i) (s.bits_per_record - s.position)) ∧
    (FormatR8.r8Byte s b i).2.2.position =
      s.position + min (8 - i) (s.bits_per_record - s.position) ∧
    (FormatR8.r8Byte s b i).2.2.bits_per_record = s.bits_per_record ∧
    (FormatR8.r8Byte s b i).2.2.run_length_1s ≤ 1 ∧
    (FormatR8.r8Byte s b i).2.2.run_length_1s ≤ (FormatR8.r8Byte s b i).2.2.generated_1s := by
  intro f
  induction f with
  | zero =>
    intro i s b hf hle hrl hg hmin
    have hi : i = 8 := by omega
    subst hi
    rw [FormatR8.r8Byte, if_neg (by omega)]
    rw [show min (8 - 8) (s.bits_per_record - s.position) = 0 from by omega]
    exact ⟨by simp, by simp [packBits], by simp, by simp, rfl, hrl, hg⟩
  | succ f ih =>
    intro i s b hf hle hrl hg hmin
    have hi : i < 8 := by omega
    obtain ⟨hflag, hR1, hpos1, hbpr1, hrl1⟩ := r8_eor s hrl
    have hst := r8_eor_state s
    rcases heo : FormatR8.is_end_of_record s with ⟨flag, s1⟩
    rw [heo] at hflag hR1 hpos1 hbpr1 hrl1 hst
    dsimp only at hflag hR1 hpos1 hbpr1 hrl1 hst
    rw [FormatR8.r8Byte, if_pos hi, heo]
    by_cases hcase : s.position ≥ s.bits_per_record ∨ r8Remaining s = []
    · have hft : flag = true := by rw [hflag]; simp [hcase]
      subst hft
      have hs1 : s1 = s := hst rfl
      rw [hs1]
      have hk0 : min (8 - i) (s.bits_per_record - s.position) = 0 := by
        rcases hcase with h | h
        · omega
        · rw [h] at hmin
          simp at hmin
          omega
      rw [hk0]
      have h08 : 0 < 8 - i := by omega
      exact ⟨by simp [h08], by simp [packBits], by simp, by simp, rfl, hrl, hg⟩
    · have hff : flag = false := by rw [hflag]; simp [hcase]
      subst hff
      push_neg at hcase
      obtain ⟨b0, rest, hRs⟩ : ∃ b0 rest, r8Remaining s = b0 :: rest := by
        cases hc : r8Remaining s with
        | nil => exact absurd hc hcase.2
        | cons a c => exact ⟨a, c, rfl⟩
      have hpos1' : s1.position < s1.bits_per_record := by
        rw [hpos1, hbpr1]
        exact hcase.1
      have hR1' : r8Remaining s1 = b0 :: rest := by rw [hR1, hRs]
      obtain ⟨s2, hrb, hR2, hpos2, hbpr2, hrl2, hg2⟩ := r8_step_cons s1 hpos1' hrl1 b0 rest hR1'
      dsimp only
      rw [hrb]
      dsimp only
      have hmin2 : min (8 - (i + 1)) (s2.bits_per_record - s2.position) ≤
          (r8Remaining s2).length := by
        rw [hR2, hpos2, hbpr2, hpos1, hbpr1]
        rw [hRs] at hmin
        simp only [List.length_cons] at hmin
        omega
      obtain ⟨g1, g2, g3, g4, g5, g6, g7⟩ := ih (i + 1) s2 (b ||| b0.toNat <<< i)
        (by omega) (by omega) hrl2 hg2 hmin2
      rcases hgb : FormatR8.r8Byte s2 (b ||| b0.toNat <<< i) (i + 1) with ⟨r2, bf, sf⟩
      rw [hgb] at g1 g2 g3 g4 g5 g6 g7
      dsimp only at g1 g2 g3 g4 g5 g6 g7
      subst g1
      dsimp only
      have hk : min (8 - (i + 1)) (s2.bits_per_record - s2.position) + 1 =
          min (8 - i) (s.bits_per_record - s.position) := by
        rw [hpos2, hbpr2, hpos1, hbpr1]
        have := hcase.1
        omega
      refine ⟨?_, ?_, ?_, ?_, ?_, g6, g7⟩
      · rw [← hk]
        rw [show decide (min (8 - (i + 1)) (s2.bits_per_record - s2.position) < 8 - (i + 1)) =
            decide (min (8 - (i + 1)) (s2.bits_per_record - s2.position) + 1 < 8 - i) from by
          rw [decide_eq_decide]; omega]
      · rw [g2, hR2, hRs, ← hk, List.take_succ_cons, packBits_cons_shift, Nat.or_assoc]
      · rw [g3, hR2, hRs, ← hk, List.drop_succ_cons]
      · rw [g4, hpos2, hpos1, ← hk]
        omega
      · rw [g5, hbpr2, hbpr1]

/-- The outer loop of the R8 bulk `read_bytes` on a zero-initialised buffer:
with enough decodable bits it reads `min (8·buflen) (bits left)` bits and
packs them into the buffer, fast path included. -/
theorem r8Loop_spec : ∀ (m : Nat) (s : FormatR8),
    s.run_length_1s ≤ 1 → s.run_length_1s ≤ s.generated_1s →
    min (8 * m) (s.bits_per_record - s.position) ≤ (r8Remaining s).length →
    (FormatR8.r8Loop s (List.replicate m 0)).1 =
      .ok (min (8 * m) (s.bits_per_record - s.position)) ∧
    (FormatR8.r8Loop s (List.replicate m 0)).2.1 =
      packChunks m ((r8Remaining s).take (min (8 * m) (s.bits_per_record - s.position))) := by
  intro m
  induction m with
  | zero =>
    intro s _ _ _
    constructor
    · simp [FormatR8.r8Loop]
    · simp [FormatR8.r8Loop, packChunks]
  | succ m ih =>
    intro s hrl hg hmin
    by_cases hfast : s.run_length_0s ≥ s.generated_0s + 8 ∧ s.bits_per_record ≥ s.position + 8
    · have hpend : r8Remaining s =
          List.replicate (s.run_length_0s - s.generated_0s) false ++
            r8Tail (r8SpecRuns s.input) := by
        unfold r8Remaining r8Pending
        rw [show s.run_length_1s - s.generated_1s = 0 from by omega]
        simp
      have hs2R : r8Remaining
          { s with position := s.position + 8, generated_0s := s.generated_0s + 8 } =
          (r8Remaining s).drop 8 := by
        unfold r8Remaining r8Pending
        dsimp only
        rw [show s.run_length_1s - s.generated_1s = 0 from by omega]
        simp only [List.replicate_zero, List.nil_append]
        rw [List.drop_append_eq_append_drop, List.drop_replicate, List.length_replicate]
        rw [show 8 - (s.run_length_0s - s.generated_0s) = 0 from by omega, List.drop_zero]
        rw [show s.run_length_0s - s.generated_0s - 8 =
          s.run_length_0s - (s.generated_0s + 8) from by omega]
      have htake8 : (r8Remaining s).take 8 = List.replicate 8 false := by
        rw [hpend, List.take_append_eq_append_take, List.length_replicate, List.take_replicate]
        rw [show min 8 (s.run_length_0s - s.generated_0s) = 8 from by omega,
            show 8 - (s.run_length_0s - s.generated_0s) = 0 from by omega, List.take_zero,
            List.append_nil]
      have hmin2 : min (8 * m) (s.bits_per_record - (s.position + 8)) ≤
          ((r8Remaining s).drop 8).length := by
        simp only [List.length_drop]
        omega
      obtain ⟨l1, l2⟩ := ih
        { s with position := s.position + 8, generated_0s := s.generated_0s + 8 } hrl hg
        (by rw [hs2R]; exact hmin2)
      rcases hloop : FormatR8.r8Loop
          { s with position := s.position + 8, generated_0s := s.generated_0s + 8 }
          (List.replicate m 0) with ⟨rl, buf2, sf⟩
      rw [hloop] at l1 l2
      dsimp only at l1 l2
      subst l1
      have hred : FormatR8.r8Loop s (List.replicate (m + 1) 0) =
          (.ok (min (8 * m) (s.bits_per_record - (s.position + 8)) + 8), 0 :: buf2, sf) := by
        rw [List.replicate_succ, FormatR8.r8Loop, if_pos hfast, hloop]
      rw [hred]
      have htot : min (8 * m) (s.bits_per_record - (s.position + 8)) + 8 =
          min (8 * (m + 1)) (s.bits_per_record - s.position) := by omega
      constructor
      · show Except.ok (min (8 * m) (s.bits_per_record - (s.position + 8)) + 8) =
          Except.ok (min (8 * (m + 1)) (s.bits_per_record - s.position))
        rw [htot]
      · show (0 : Nat) :: buf2 =
          packChunks (m + 1)
            ((r8Remaining s).take (min (8 * (m + 1)) (s.bits_per_record - s.position)))
        rw [l2, hs2R]
        show _ = packBits
            (((r8Remaining s).take (min (8 * (m + 1)) (s.bits_per_record - s.position))).take 8) ::
          packChunks m
            (((r8Remaining s).take (min (8 * (m + 1)) (s.bits_per_record - s.position))).drop 8)
        have h8le : 8 ≤ min (8 * (m + 1)) (s.bits_per_record - s.position) := by omega
        rw [List.take_take, Nat.min_eq_left h8le, htake8, packBits_replicate_false,
          List.drop_take]
        rw [show min (8 * (m + 1)) (s.bits_per_record - s.position) - 8 =
          min (8 * m) (s.bits_per_record - (s.position + 8)) from by omega]
    · obtain ⟨g1, g2, g3, g4, g5, g6, g7⟩ := r8Byte_spec 8 0 s 0 rfl (by omega) hrl hg
        (by omega)
      simp only [Nat.sub_zero] at g1 g2 g3 g4
      rcases hgb : FormatR8.r8Byte s 0 0 with ⟨r, bf, sf⟩
      rw [hgb] at g1 g2 g3 g4 g5 g6 g7
      dsimp only at g1 g2 g3 g4 g5 g6 g7
      subst g1
      have hbf : bf = packBits ((r8Remaining s).take (min 8 (s.bits_per_record - s.position))) := by
        rw [g2]
        simp
      by_cases hend : min 8 (s.bits_per_record - s.position) < 8
      · have hdec : decide (min 8 (s.bits_per_record - s.position) < 8) = true :=
          decide_eq_true hend
        have hred : FormatR8.r8Loop s (List.replicate (m + 1) 0) =
            (.ok (min 8 (s.bits_per_record - s.position)), bf :: List.replicate m 0, sf) := by
          rw [List.replicate_succ, FormatR8.r8Loop, if_neg hfast, hgb, hdec]
        rw [hred]
        have hk : min (8 * (m + 1)) (s.bits_per_record - s.position) =
            min 8 (s.bits_per_record - s.position) := by omega
        constructor
        · show Except.ok (min 8 (s.bits_per_record - s.position)) =
            Except.ok (min (8 * (m + 1)) (s.bits_per_record - s.position))
          rw [hk]
        · show bf :: List.replicate m 0 =
            packChunks (m + 1)
              ((r8Remaining s).take (min (8 * (m + 1)) (s.bits_per_record - s.position)))
          rw [hbf, hk]
          have hlen : ((r8Remaining s).take (min 8 (s.bits_per_record - s.position))).length ≤ 8 := by
            simp
          show _ = packBits
              (((r8Remaining s).take (min 8 (s.bits_per_record - s.position))).take 8) ::
            packChunks m
              (((r8Remaining s).take (min 8 (s.bits_per_record - s.position))).drop 8)
          rw [List.take_of_length_le hlen, List.drop_eq_nil_of_le hlen, packChunks_nil]
      · have hk8 : min 8 (s.bits_per_record - s.position) = 8 := by omega
        have hdec : decide (min 8 (s.bits_per_record - s.position) < 8) = false :=
          decide_eq_false hend
        rw [hk8] at g3 g4 hbf
        have hmin2 : min (8 * m) (sf.bits_per_record - sf.position) ≤ (r8Remaining sf).length := by
          rw [g3, g4, g5]
          simp only [List.length_drop]
          omega
        obtain ⟨l1, l2⟩ := ih sf g6 g7 hmin2
        rcases hloop : FormatR8.r8Loop sf (List.replicate m 0) with ⟨rl2, buf2, sf2⟩
        rw [hloop] at l1 l2
        dsimp only at l1 l2
        subst l1
        have hred : FormatR8.r8Loop s (List.replicate (m + 1) 0) =
            (.ok (min 8 (s.bits_per_record - s.position) +
                min (8 * m) (sf.bits_per_record - sf.position)), bf :: buf2, sf2) := by
          rw [List.replicate_succ, FormatR8.r8Loop, if_neg hfast, hgb, hdec]
          dsimp only
          rw [hloop]
        rw [hred]
        constructor
        · show Except.ok (min 8 (s.bits_per_record - s.position) +
              min (8 * m) (sf.bits_per_record - sf.position)) =
            Except.ok (min (8 * (m + 1)) (s.bits_per_record - s.position))
          rw [hk8, g4, g5]
          congr 1
          omega
        · show bf :: buf2 =
            packChunks (m + 1)
              ((r8Remaining s).take (min (8 * (m + 1)) (s.bits_per_record - s.position)))
          rw [l2, hbf, g3, g4, g5]
          show _ = packBits
              (((r8Remaining s).take (min (8 * (m + 1)) (s.bits_per_record - s.position))).take 8) ::
            packChunks m
              (((r8Remaining s).take (min (8 * (m + 1)) (s.bits_per_record - s.position))).drop 8)
          have h8le : 8 ≤ min (8 * (m + 1)) (s.bits_per_record - s.position) := by omega
          rw [List.take_take, Nat.min_eq_left h8le, List.drop_take]
          rw [show min (8 * (m + 1)) (s.bits_per_record - s.position) - 8 =
            min (8 * m) (s.bits_per_record - (s.position + 8)) from by omega]

/-- For a fresh R8 reader the bulk `read_bytes` and the generic bit-by-bit
fallback return the same count and the same buffer, given enough decodable
bits. -/
theorem r8_bulk_eq_generic (input : List Nat) (bpr m : Nat)
    (hsuff : min (8 * m) bpr ≤ (r8RunsBits (r8SpecRuns input)).length) :
    (FormatR8.read_bytes (initR8 input bpr) (List.replicate m 0)).1 =
      (genReadBytes FormatR8.read_bit FormatR8.is_end_of_record (fun t => t.position)
        (fun t => t.bits_per_record) (initR8 input bpr) (List.replicate m 0)).1 ∧
    (FormatR8.read_bytes (initR8 input bpr) (List.replicate m 0)).2.1 =
      (genReadBytes FormatR8.read_bit FormatR8.is_end_of_record (fun t => t.position)
        (fun t => t.bits_per_record) (initR8 input bpr) (List.replicate m 0)).2.1 := by
  obtain ⟨hRr, hpos0, hbpr0, hrl0⟩ := initR8_remaining input bpr
  obtain ⟨hg1, hg2⟩ := genReadBytes_spec FormatR8.read_bit FormatR8.is_end_of_record
    (fun t => t.position) (fun t => t.bits_per_record) r8Remaining
    (fun t => t.run_length_1s ≤ 1)
    (fun s b rest hP hp hR => r8_hstep s b rest hP hp hR)
    (fun s hP => r8_eor s hP) m (initR8 input bpr) hrl0
    (by show min (8 * m) ((initR8 input bpr).bits_per_record - (initR8 input bpr).position) ≤
          (r8Remaining (initR8 input bpr)).length
        rw [hRr, hpos0, hbpr0]
        omega)
  have hg1' : (genReadBytes FormatR8.read_bit FormatR8.is_end_of_record (fun t => t.position)
      (fun t => t.bits_per_record) (initR8 input bpr) (List.replicate m 0)).1 =
      .ok (min (8 * m) bpr) := by
    rw [hg1, hbpr0, hpos0]
    rfl
  have hg2' : (genReadBytes FormatR8.read_bit FormatR8.is_end_of_record (fun t => t.position)
      (fun t => t.bits_per_record) (initR8 input bpr) (List.replicate m 0)).2.1 =
      packChunks m ((r8RunsBits (r8SpecRuns input)).take (min (8 * m) bpr)) := by
    rw [hg2, hRr, hbpr0, hpos0]
    rfl
  by_cases hb0 : bpr = 0
  · have hred : FormatR8.read_bytes (initR8 input bpr) (List.replicate m 0) =
        (.ok 0, List.replicate m 0, initR8 input bpr) := by
      unfold FormatR8.read_bytes
      rw [if_pos (by rw [hpos0, hbpr0]; omega)]
    constructor
    · rw [hred, hg1', hb0]
      simp
    · rw [hred, hg2', hb0]
      simp [packChunks_nil]
  · have hred : FormatR8.read_bytes (initR8 input bpr) (List.replicate m 0) =
        FormatR8.r8Loop (initR8 input bpr) (List.replicate m 0) := by
      unfold FormatR8.read_bytes
      rw [if_neg (by rw [hpos0, hbpr0]; omega)]
    have hgr : (initR8 input bpr).run_length_1s ≤ (initR8 input bpr).generated_1s := by
      rw [show (initR8 input bpr).run_length_1s = 0 from rfl]
      exact Nat.zero_le _
    obtain ⟨l1, l2⟩ := r8Loop_spec m (initR8 input bpr) hrl0 hgr
      (by rw [hRr, hpos0, hbpr0]; omega)
    constructor
    · rw [hred, l1, hg1', hpos0, hbpr0]
      rfl
    · rw [hred, l2, hg2', hRr, hpos0, hbpr0]
      rfl

/-- Claim C3 (amended): for B8 and R8 with a zero-initialised buffer the
bulk `read_bytes` returns the same bit count and byte-identical buffer
contents as the generic bit-by-bit fallback, provided the stream holds at
least `min(8·buflen, bits_per_record − position)` decodable bits and, for
B8, the padding bits of the stream byte containing the record's last bit
are zero. -/
theorem c3_amended (input : List Nat) (bpr m : Nat)
    (hbytes : ∀ b ∈ input, b < 256)
    (hsuffB : min (8 * m) bpr ≤ 8 * input.length)
    (hpad : min (8 * m) bpr % 8 = 0 ∨
      input.getD (min (8 * m) bpr / 8) 0 < 2 ^ (min (8 * m) bpr % 8))
    (hsuffR : min (8 * m) bpr ≤ (r8RunsBits (r8SpecRuns input)).length) :
    ((FormatB8.read_bytes (initB8 input bpr) (List.replicate m 0)).1 =
        (genReadBytes FormatB8.read_bit FormatB8.is_end_of_record (fun t => t.position)
          (fun t => t.bits_per_record) (initB8 input bpr) (List.replicate m 0)).1 ∧
      (FormatB8.read_bytes (initB8 input bpr) (List.replicate m 0)).2.1 =
        (genReadBytes FormatB8.read_bit FormatB8.is_end_of_record (fun t => t.position)
          (fun t => t.bits_per_record) (initB8 input bpr) (List.replicate m 0)).2.1) ∧
    ((FormatR8.read_bytes (initR8 input bpr) (List.replicate m 0)).1 =
        (genReadBytes FormatR8.read_bit FormatR8.is_end_of_record (fun t => t.position)
          (fun t => t.bits_per_record) (initR8 input bpr) (List.replicate m 0)).1 ∧
      (FormatR8.read_bytes (initR8 input bpr) (List.replicate m 0)).2.1 =
        (genReadBytes FormatR8.read_bit FormatR8.is_end_of_record (fun t => t.position)
          (fun t => t.bits_per_record) (initR8 input bpr) (List.replicate m 0)).2.1) :=
  ⟨b8_bulk_eq_generic input bpr m hbytes hsuffB hpad,
   r8_bulk_eq_generic input bpr m hsuffR⟩

/-- Witness for the amended claim C3 at the concrete stream `[11, 1]`,
12-bit records and a 2-byte buffer. -/
theorem c3_amended_witness :
    ((FormatB8.read_bytes (initB8 [11, 1] 12) (List.replicate 2 0)).1 =
        (genReadBytes FormatB8.read_bit FormatB8.is_end_of_record (fun t => t.position)
          (fun t => t.bits_per_record) (initB8 [11, 1] 12) (List.replicate 2 0)).1 ∧
      (FormatB8.read_bytes (initB8 [11, 1] 12) (List.replicate 2 0)).2.1 =
        (genReadBytes FormatB8.read_bit FormatB8.is_end_of_record (fun t => t.position)
          (fun t => t.bits_per_record) (initB8 [11, 1] 12) (List.replicate 2 0)).2.1) ∧
    ((FormatR8.read_bytes (initR8 [11, 1] 12) (List.replicate 2 0)).1 =
        (genReadBytes FormatR8.read_bit FormatR8.is_end_of_record (fun t => t.position)
          (fun t => t.bits_per_record) (initR8 [11, 1] 12) (List.replicate 2 0)).1 ∧
      (FormatR8.read_bytes (initR8 [11, 1] 12) (List.replicate 2 0)).2.1 =
        (genReadBytes FormatR8.read_bit FormatR8.is_end_of_record (fun t => t.position)
          (fun t => t.bits_per_record) (initR8 [11, 1] 12) (List.replicate 2 0)).2.1) :=
  c3_amended [11, 1] 12 2 (by decide) (by decide) (by decide)
    (by simp [r8SpecRuns, FormatR8.readRun, r8RunsBits])

end StimReader
